import Mathlib

/-!
Verification of the NAR accessor (`src/libstore/nar-accessor.cc`).

The development shallowly embeds the source file: the node tree (`NarMember`),
the streaming indexer (`NarIndexer`, modelled as a step function over an
explicit state whose parent stack holds the paths of the nodes the C++ code
holds pointers to), the JSON listing importer, the query surface
(`maybeLstat`, `readDirectory`, `readFile`, `readLink`) and the listing
exporter (`listNar`).

C++ paths are '/'-separated strings whose separator count equals the nesting
depth; they are embedded as `List String` of segments, so that the separator
count is the list length and `baseNameOf` is the last segment.  Byte buffers
are embedded as `List Char`.  JSON values are embedded structurally
(`Json`); the textual encode/decode layer is an external collaborator of the
source file and is not modelled.
-/

set_option linter.unusedVariables false
set_option linter.unreachableTactic false
set_option linter.unusedTactic false

namespace Nar

/-! # Definitions -/


/-- File types, from the generic accessor interface (`SourceAccessor::Type`):
regular file, symlink, directory, and the `tMisc` kind never produced by NAR
indexing. -/
inductive FType where
  | tRegular
  | tSymlink
  | tDirectory
  | tMisc
deriving DecidableEq, Repr

/-- Modelled from the spec: `SourceAccessor::Stat` is declared in a header
that is not among the sources.  Per the spec (§3), `fileSize` and `narOffset`
are optional unsigned 64-bit values and `isExecutable` is a boolean.  The
field declaration order `type, fileSize, isExecutable, narOffset` is pinned
by the source itself: the designated initializers of the listing
constructor's regular case must follow declaration order in C++.  The
indexer's aggregate initializers `{Type::tX, false, 0, 0}` therefore fill
the fields in this order, engaging both optionals (with value 0, the `false`
and the first `0` converting through `uint64_t`). -/
structure Stat where
  type : FType := .tMisc
  fileSize : Option Nat := none
  isExecutable : Bool := false
  narOffset : Option Nat := none
deriving DecidableEq, Repr

/-- The stat the indexer's `{Type::tDirectory, false, 0, 0}` aggregate
initializer builds: fields filled in declaration order, so both optionals
are engaged with 0. -/
def dirStat : Stat :=
  { type := .tDirectory, fileSize := some 0, isExecutable := false,
    narOffset := some 0 }

/-- `NarMember`: one node of the index tree — its stat, its symlink target and
its children.  `std::map<std::string, NarMember>` is embedded as an
association list kept sorted by key (string order), which is how the indexer
and importer build it. -/
inductive NarMember where
  | mk (stat : Stat) (target : String) (children : List (String × NarMember))

def NarMember.stat : NarMember → Stat
  | .mk s _ _ => s

def NarMember.target : NarMember → String
  | .mk _ t _ => t

def NarMember.children : NarMember → List (String × NarMember)
  | .mk _ _ c => c

/-- A default-constructed `NarMember` (all fields zero-value), as produced by
`NarAccessor`'s member initialisation and by `std::map::operator[]`. -/
def defaultMember : NarMember := .mk {} "" []

/-- `std::map::find`: first (only, the map keys being unique) entry with the
given key. -/
def lookupChild : List (String × NarMember) → String → Option NarMember
  | [], _ => none
  | (k, v) :: rest, n => if n = k then some v else lookupChild rest n

/-- `std::map::emplace`: insert at the sorted position if the key is absent;
keep the existing entry otherwise. -/
def emplaceChild : List (String × NarMember) → String → NarMember →
    List (String × NarMember)
  | [], n, m => [(n, m)]
  | (k, v) :: rest, n, m =>
    if n < k then (n, m) :: (k, v) :: rest
    else if n = k then (k, v) :: rest
    else (k, v) :: emplaceChild rest n m

/-- `std::map::operator[]` followed by assignment: insert at the sorted
position, overwriting the value if the key is present. -/
def setChild : List (String × NarMember) → String → NarMember →
    List (String × NarMember)
  | [], n, m => [(n, m)]
  | (k, v) :: rest, n, m =>
    if n < k then (n, m) :: (k, v) :: rest
    else if n = k then (k, m) :: rest
    else (k, v) :: setChild rest n m

/-- Apply `f` to the value stored under key `n` (no-op when absent). -/
def updateChild : List (String × NarMember) → String → (NarMember → NarMember) →
    List (String × NarMember)
  | [], _, _ => []
  | (k, v) :: rest, n, f =>
    if n = k then (k, f v) :: rest else (k, v) :: updateChild rest n f

/-- Dereference a stored pointer: walk the tree along a path of child keys,
with no type checks (the C++ stack holds raw pointers into the tree). -/
def rawFind : NarMember → List String → Option NarMember
  | m, [] => some m
  | m, n :: rest =>
    match lookupChild m.children n with
    | some c => rawFind c rest
    | none => none

/-- Mutate the node a stored pointer designates: rewrite the tree along a path
of child keys, applying `f` at the end (no-op when the path is missing). -/
def updateAt : NarMember → List String → (NarMember → NarMember) → NarMember
  | m, [], f => f m
  | m, n :: rest, f =>
    .mk m.stat m.target (updateChild m.children n (fun c => updateAt c rest f))

/-- `NarAccessor::find`: resolve a canonical path against the tree, failing as
soon as an intermediate node is not a directory or a segment is missing. -/
def find : NarMember → List String → Option NarMember
  | m, [] => some m
  | m, n :: rest =>
    if m.stat.type = .tDirectory then
      match lookupChild m.children n with
      | some c => find c rest
      | none => none
    else none

/-- Errors surfaced by the query operations.  `notFound` is `get`'s
"NAR file does not contain path"; the three wrong-type errors are the
per-operation "is not a ..." errors; `outOfRange` is `std::string`'s
substring-constructor exception; `ubDeref` marks the undefined behaviour of
dereferencing a disengaged `std::optional`; `inconsistentIndex` is the error
kind the spec (§7) prescribes for a `Regular` node lacking offset/size. -/
inductive AccErr where
  | notFound
  | notDirectory
  | notRegular
  | notSymlink
  | outOfRange
  | ubDeref
  | inconsistentIndex
deriving DecidableEq, Repr

/-- `NarAccessor::maybeLstat`. -/
def maybeLstat (t : NarMember) (p : List String) : Option Stat :=
  (find t p).map NarMember.stat

/-- Modelled from the spec: `SourceAccessor::lstat` (defined outside the
sources) returns `maybeLstat`'s result and fails with `NotFound` when the
path does not resolve. -/
def lstat (t : NarMember) (p : List String) : Except AccErr Stat :=
  match maybeLstat t p with
  | some s => .ok s
  | none => .error .notFound

/-- `NarAccessor::readDirectory`: the children's names, each mapped to an
unresolved (`none`) type hint. -/
def readDirectory (t : NarMember) (p : List String) :
    Except AccErr (List (String × Option FType)) :=
  match find t p with
  | none => .error .notFound
  | some m =>
    if m.stat.type = .tDirectory then
      .ok (m.children.map (fun c => (c.1, (none : Option FType))))
    else .error .notDirectory

/-- The common part of `NarAccessor::readFile`: resolve the path, require a
regular file, then hand `*stat.narOffset` and `*stat.fileSize` to the content
strategy.  Dereferencing a disengaged optional is undefined behaviour in the
source; it is embedded as the distinguished outcome `ubDeref`. -/
def readFileWith (content : Nat → Nat → Except AccErr (List Char))
    (t : NarMember) (p : List String) : Except AccErr (List Char) :=
  match find t p with
  | none => .error .notFound
  | some m =>
    if m.stat.type = .tRegular then
      match m.stat.narOffset, m.stat.fileSize with
      | some o, some s => content o s
      | _, _ => .error .ubDeref
    else .error .notRegular

/-- `readFile` of the owned-buffer accessor: `std::string(*nar, offset, size)`
slices the stored archive, throwing `out_of_range` when the offset exceeds
the buffer length and clipping the size otherwise. -/
def readFileOwned (nar : List Char) (t : NarMember) (p : List String) :
    Except AccErr (List Char) :=
  readFileWith
    (fun o s => if o ≤ nar.length then .ok ((nar.drop o).take s) else .error .outOfRange)
    t p

/-- `readFile` of the fetcher-based accessor: `getNarBytes(offset, size)`. -/
def readFileVia (getNarBytes : Nat → Nat → List Char) (t : NarMember)
    (p : List String) : Except AccErr (List Char) :=
  readFileWith (fun o s => .ok (getNarBytes o s)) t p

/-- `NarAccessor::readLink`. -/
def readLink (t : NarMember) (p : List String) : Except AccErr String :=
  match find t p with
  | none => .error .notFound
  | some m =>
    if m.stat.type = .tSymlink then .ok m.target else .error .notSymlink


inductive NarEvent where
  | createDirectory (path : List String)
  | createRegularFile (path : List String)
  | isExecutable
  | preallocateContents (size : Nat)
  | createSymlink (path : List String) (target : String)
  | readBytes (n : Nat)
deriving DecidableEq, Repr

/-- `Error` exits of the indexer.  `missingParent` is the thrown
"NAR file missing parent directory of path"; `emptyStack` marks the undefined
behaviour of `parents.top()` on an empty stack; `danglingPtr` marks a stack
entry that no longer designates a node (unreachable from the initial state). -/
inductive IndexError where
  | missingParent (path : List String)
  | emptyStack
  | danglingPtr
deriving DecidableEq, Repr

/-- The indexer's state: the tree under construction, the stack of parent
pointers (each embedded as the path of the node it designates, innermost
first) and the byte-position counter `pos`. -/
structure IndexerState where
  root : NarMember
  parents : List (List String)
  pos : Nat

/-- `while (parents.size() > level) parents.pop();` -/
def popTo (parents : List (List String)) (level : Nat) : List (List String) :=
  parents.drop (parents.length - level)

/-- `baseNameOf`: the part of the path after the last separator, i.e. the
last segment. -/
def baseName (p : List String) : String :=
  p.getLast?.getD ""

/-- `NarIndexer::createMember`: pop the stack to the path's depth (its
separator count, i.e. the segment count); an empty stack makes the new member
the root, otherwise the stack top must be a directory and the member is
emplaced as its child under the path's base name; the created (or, for
`emplace` on a present key, the already present) child is pushed. -/
def createMember (st : IndexerState) (path : List String) (member : NarMember) :
    Except IndexError IndexerState :=
  let parents := popTo st.parents path.length
  match parents with
  | [] => .ok ⟨member, [[]], st.pos⟩
  | parent :: _ =>
    match rawFind st.root parent with
    | none => .error .danglingPtr
    | some node =>
      if node.stat.type = .tDirectory then
        .ok ⟨updateAt st.root parent (fun d =>
              .mk d.stat d.target (emplaceChild d.children (baseName path) member)),
            (parent ++ [baseName path]) :: parents, st.pos⟩
      else .error (.missingParent path)

/-- One indexer transition per event, straight from the `ParseSink` callback
bodies and the `read` wrapper. The aggregate initializers
`{Type::tDirectory, false, 0, 0}` and `{Type::tRegular, false, 0, 0}` fill
`Stat`'s fields in declaration order (`type`, `fileSize`, `isExecutable`,
`narOffset`, as pinned by the designated initializers in the listing-based
constructor), so both `std::optional` fields are engaged with value 0; the
symlink member's designated initializer `{.type = Type::tSymlink}` leaves
them disengaged. -/
def step (st : IndexerState) : NarEvent → Except IndexError IndexerState
  | .createDirectory p =>
    createMember st p (.mk dirStat "" [])
  | .createRegularFile p =>
    createMember st p
      (.mk { type := .tRegular, fileSize := some 0, isExecutable := false,
             narOffset := some 0 } "" [])
  | .createSymlink p tg =>
    createMember st p (.mk { type := .tSymlink } tg [])
  | .isExecutable =>
    match st.parents with
    | [] => .error .emptyStack
    | top :: _ =>
      .ok ⟨updateAt st.root top (fun m =>
            .mk { m.stat with isExecutable := true } m.target m.children),
          st.parents, st.pos⟩
  | .preallocateContents size =>
    match st.parents with
    | [] => .error .emptyStack
    | top :: _ =>
      .ok ⟨updateAt st.root top (fun m =>
            .mk { m.stat with fileSize := some size, narOffset := some st.pos }
              m.target m.children),
          st.parents, st.pos⟩
  | .readBytes n => .ok ⟨st.root, st.parents, st.pos + n⟩

/-- Run the indexer over a list of events, short-circuiting on error (a thrown
`Error` aborts `parseDump` and the `NarAccessor` constructor). -/
def runE : List NarEvent → Except IndexError IndexerState →
    Except IndexError IndexerState
  | [], r => r
  | e :: evs, .ok st => runE evs (step st e)
  | _ :: _, .error err => .error err

/-- The initial state of a `NarAccessor` under construction: default root,
empty stack, position zero. -/
def initState : IndexerState := ⟨defaultMember, [], 0⟩

/-- `NarAccessor(Source &)`: index an event stream from scratch. -/
def runIndexer (evs : List NarEvent) : Except IndexError IndexerState :=
  runE evs (.ok initState)


inductive Json where
  | null
  | bool (b : Bool)
  | num (n : Nat)
  | str (s : String)
  | obj (kvs : List (String × Json))

/-- Field lookup in a JSON object. -/
def jlookup : List (String × Json) → String → Option Json
  | [], _ => none
  | (k, v) :: rest, n => if n = k then some v else jlookup rest n

/-- Exporter failures: `lstat`'s thrown `NotFound`, and the
`assert(false)` on the `tMisc` kind. -/
inductive ExpErr where
  | notFound
  | assertMisc
deriving DecidableEq, Repr

mutual

/-- The per-node body of `listNar`, structurally on the resolved node.
The source recurses through accessor queries at extended paths; since every
such query re-resolves to the corresponding child (`find_append_child`
below), this is the same computation.
  * regular: `type`, then `size` when `fileSize` is engaged, `executable`
    only when true, `narOffset` when engaged and nonzero;
  * directory: `type` and `entries`, recursing into each child when `recurse`
    is set and emitting an empty object per child otherwise;
  * symlink: `type` and `target`;
  * misc: `assert(false)`. -/
def exportN : NarMember → Bool → Except ExpErr Json
  | .mk st tg cs, recurse =>
    match st.type with
    | .tRegular =>
      .ok (.obj ([("type", .str "regular")]
        ++ (match st.fileSize with
            | some s => [("size", .num s)]
            | none => [])
        ++ (if st.isExecutable then [("executable", .bool true)] else [])
        ++ (match st.narOffset with
            | some o => if o ≠ 0 then [("narOffset", .num o)] else []
            | none => [])))
    | .tDirectory =>
      if recurse then
        match exportChildren cs with
        | .ok es => .ok (.obj [("type", .str "directory"), ("entries", .obj es)])
        | .error e => .error e
      else
        .ok (.obj [("type", .str "directory"),
          ("entries", .obj (cs.map (fun c => (c.1, Json.obj []))))])
    | .tSymlink => .ok (.obj [("type", .str "symlink"), ("target", .str tg)])
    | .tMisc => .error .assertMisc

/-- The exporter's loop over `readDirectory`'s result in the recursive case:
each child name mapped to its own full listing. -/
def exportChildren : List (String × NarMember) → Except ExpErr (List (String × Json))
  | [] => .ok []
  | (n, c) :: rest =>
    match exportN c true with
    | .error e => .error e
    | .ok j =>
      match exportChildren rest with
      | .error e => .error e
      | .ok js => .ok ((n, j) :: js)

end


/-- `listNar(accessor, path, recurse)`: resolve the path (`lstat` throws
`NotFound` when it does not resolve) and export the node found there. -/
def listNar (t : NarMember) (p : List String) (recurse : Bool) :
    Except ExpErr Json :=
  match find t p with
  | none => .error .notFound
  | some m => exportN m recurse


/-- Importer failures: a `nlohmann::json` type error (failed conversion, or
`operator[]`/`value` on a non-object), and the `invalid_iterator` error of
taking `key()` while iterating a primitive. -/
inductive ImpErr where
  | typeErr
  | badIter
deriving DecidableEq, Repr

/-- `v["k"]` read on an object (or on `null`, which `operator[]` turns into an
object): the field's value, or `null` when absent. -/
def vField (kvs : List (String × Json)) (k : String) : Json :=
  (jlookup kvs k).getD .null

/-- Conversion of a JSON value to `std::string` (throws on non-strings). -/
def asString : Json → Except ImpErr String
  | .str s => .ok s
  | _ => .error .typeErr

/-- Conversion of a JSON value to `uint64_t` (throws on non-numbers). -/
def asNat : Json → Except ImpErr Nat
  | .num n => .ok n
  | _ => .error .typeErr

/-- `v.value(k, default)` for a boolean field. -/
def valueBool (kvs : List (String × Json)) (k : String) (d : Bool) :
    Except ImpErr Bool :=
  match jlookup kvs k with
  | none => .ok d
  | some (.bool b) => .ok b
  | some _ => .error .typeErr

/-- `v.value(k, default)` for a string field. -/
def valueString (kvs : List (String × Json)) (k : String) (d : String) :
    Except ImpErr String :=
  match jlookup kvs k with
  | none => .ok d
  | some (.str s) => .ok s
  | some _ => .error .typeErr

mutual

/-- The `recurse` lambda of the listing constructor, on the member being
filled in and the listing value; the directory case iterates
`v["entries"]` through `importDir`/`importEntries`, each iteration importing
into `member.children[name]` (default-constructed when absent, then stored
back). -/
def importInto (m : NarMember) (v : Json) : Except ImpErr NarMember :=
  match v with
  | .obj kvs =>
    (match asString (vField kvs "type") with
    | .error e => .error e
    | .ok ty =>
      if ty = "directory" then importDir m kvs
      else if ty = "regular" then
        match asNat (vField kvs "size") with
        | .error e => .error e
        | .ok sz =>
          match valueBool kvs "executable" false with
          | .error e => .error e
          | .ok ex =>
            match asNat (vField kvs "narOffset") with
            | .error e => .error e
            | .ok off =>
              .ok (.mk { type := .tRegular, fileSize := some sz,
                         isExecutable := ex, narOffset := some off }
                   m.target m.children)
      else if ty = "symlink" then
        match valueString kvs "target" "" with
        | .error e => .error e
        | .ok tg => .ok (.mk { type := .tSymlink } tg m.children)
      else .ok m)
  | _ => .error .typeErr

/-- The directory case: locate `v["entries"]` (the first — only — field of
that name, exactly `jlookup`; inlined here so the recursion is structural,
see `importDir_eq_jlookup`) and hand it to `importDirEntry`.  An absent
field behaves like `null`. -/
def importDir (m : NarMember) : List (String × Json) → Except ImpErr NarMember
  | [] => .ok (.mk { type := .tDirectory } m.target m.children)
  | (k, v) :: rest =>
    if "entries" = k then importDirEntry m v else importDir m rest

/-- Iterate a located `entries` value: an object is looped over; `null`
iterates zero times; a primitive makes `key()` of its iterator throw. -/
def importDirEntry (m : NarMember) : Json → Except ImpErr NarMember
  | .obj es =>
    (match importEntries m.children es with
     | .ok cs => .ok (.mk { type := .tDirectory } m.target cs)
     | .error e => .error e)
  | .null => .ok (.mk { type := .tDirectory } m.target m.children)
  | _ => .error .badIter

/-- `for (i = v["entries"].begin(); ...)`: import each listed entry into the
children map. -/
def importEntries (cs : List (String × NarMember)) :
    List (String × Json) → Except ImpErr (List (String × NarMember))
  | [] => .ok cs
  | (n, jv) :: rest =>
    match importInto ((lookupChild cs n).getD defaultMember) jv with
    | .error e => .error e
    | .ok c => importEntries (setChild cs n c) rest

end


/-- Case split of the directory import on the looked-up `entries` field. -/
def entriesCase (m : NarMember) : Option Json → Except ImpErr NarMember
  | none => .ok (.mk { type := .tDirectory } m.target m.children)
  | some v => importDirEntry m v

/-- `makeLazyNarAccessor` / the listing constructor: import the parsed listing
into the default-constructed root. -/
def importJson (v : Json) : Except ImpErr NarMember :=
  importInto defaultMember v



/-- One listing field is allowed: either its name is not `narOffset`, or its
value is not the number zero. -/
def entryNotZeroOffset (k : String) (v : Json) : Bool :=
  if k = "narOffset" then
    match v with
    | .num n => decide (n ≠ 0)
    | _ => true
  else true

mutual

/-- No object anywhere in the value has a `narOffset` field equal to zero. -/
def noZeroOffsetB : Json → Bool
  | .obj kvs => noZeroOffsetKvsB kvs
  | _ => true

def noZeroOffsetKvsB : List (String × Json) → Bool
  | [] => true
  | (k, v) :: rest => entryNotZeroOffset k v && noZeroOffsetB v && noZeroOffsetKvsB rest

end


/-- Field lookup across the whole produced value. -/
def jfield (j : Json) (k : String) : Option Json :=
  match j with
  | .obj kvs => jlookup kvs k
  | _ => none

/-- A regular node whose recorded offset is zero (and size zero). -/
def c7ZNode : NarMember :=
  .mk { type := .tRegular, fileSize := some 0, isExecutable := false,
        narOffset := some 0 } "" []

/-- An executable regular node with offset 7 and size 2. -/
def c7ANode : NarMember :=
  .mk { type := .tRegular, fileSize := some 2, isExecutable := true,
        narOffset := some 7 } "" []

/-- A directory holding both. -/
def c7Tree : NarMember :=
  .mk { type := .tDirectory } "" [("a", c7ANode), ("z", c7ZNode)]

/-- What the exporter produces for `c7Tree` (deep). -/
def c7Listing : Json :=
  .obj [("type", .str "directory"),
        ("entries", .obj
          [("a", .obj [("type", .str "regular"), ("size", .num 2),
                       ("executable", .bool true), ("narOffset", .num 7)]),
           ("z", .obj [("type", .str "regular"), ("size", .num 0)])])]

/-- What the exporter produces for the zero-offset node. -/
def c7ZListing : Json :=
  .obj [("type", .str "regular"), ("size", .num 0)]


/-- The listing embedded for child `n`: the entry under `n` of the value's
`entries` object. -/
def jChild (j : Json) (n : String) : Option Json :=
  match jfield j "entries" with
  | some (.obj es) => jlookup es n
  | _ => none

/-- Walk embedded listings along a path of child names. -/
def jdescend : Json → List String → Option Json
  | j, [] => some j
  | j, n :: rest =>
    match jChild j n with
    | some c => jdescend c rest
    | none => none

/-- A regular leaf for the C9 witness. -/
def c9Leaf : NarMember :=
  .mk { type := .tRegular, fileSize := some 3, isExecutable := false,
        narOffset := some 11 } "" []

/-- A depth-1 directory holding the leaf. -/
def c9Sub : NarMember := .mk { type := .tDirectory } "" [("f", c9Leaf)]

/-- A depth-2 directory. -/
def c9Tree : NarMember := .mk { type := .tDirectory } "" [("d", c9Sub)]

/-- The shallow listing of `c9Tree`. -/
def c9Shallow : Json :=
  .obj [("type", .str "directory"), ("entries", .obj [("d", .obj [])])]

/-- The deep listing of `c9Tree`. -/
def c9Deep : Json :=
  .obj [("type", .str "directory"),
        ("entries", .obj
          [("d", .obj [("type", .str "directory"),
                       ("entries", .obj
                         [("f", .obj [("type", .str "regular"),
                                      ("size", .num 3),
                                      ("narOffset", .num 11)])])])])]





/-- A hand-made Regular node with no recorded `narOffset`/`fileSize` (no
importer produces one, cf. `C5` analysis). -/
def brokenRegular : NarMember := .mk { type := .tRegular } "" []


/-- The path carried by a `create*` event. -/
def createdPath : NarEvent → Option (List String)
  | .createDirectory p => some p
  | .createRegularFile p => some p
  | .createSymlink p _ => some p
  | _ => none


/-- Total of the bytes read by a stream's `readBytes` events. -/
def totalRead : List NarEvent → Nat
  | [] => 0
  | .readBytes n :: evs => n + totalRead evs
  | _ :: evs => totalRead evs

/-- The counter values captured by the stream's `preallocateContents` events,
in stream order, starting from counter value `pos`. -/
def declarePositions (pos : Nat) : List NarEvent → List Nat
  | [] => []
  | .readBytes n :: evs => declarePositions (pos + n) evs
  | .preallocateContents _ :: evs => pos :: declarePositions pos evs
  | _ :: evs => declarePositions pos evs


/-- Keys strictly ascend: the ordering invariant `std::map` maintains and
both importers produce. -/
def sortedKeysB : List (String × NarMember) → Bool
  | [] => true
  | [_] => true
  | (k₁, _) :: (k₂, v₂) :: rest =>
    decide (k₁ < k₂) && sortedKeysB ((k₂, v₂) :: rest)

mutual

/-- An index as built from an archive byte stream of length `L`: regular
nodes carry an engaged `fileSize` and an engaged, nonzero, in-range
`narOffset`, no children and no target; directory nodes carry the stat the
indexer's `{Type::tDirectory, false, 0, 0}` initializer gives them (both
optionals engaged with 0) and sorted, recursively good children; symlink
nodes carry the bare symlink stat of `{.type = Type::tSymlink}` and no
children. -/
def goodIndexB (L : Nat) : NarMember → Bool
  | .mk st tg cs =>
    match st.type with
    | .tRegular =>
      (match st.fileSize, st.narOffset with
       | some _, some o => decide (o ≠ 0) && decide (o ≤ L)
       | _, _ => false) && decide (tg = "") && cs.isEmpty
    | .tDirectory =>
      decide (st = dirStat) &&
        decide (tg = "") && sortedKeysB cs && goodChildrenB L cs
    | .tSymlink => decide (st = { type := .tSymlink }) && cs.isEmpty
    | .tMisc => false

def goodChildrenB (L : Nat) : List (String × NarMember) → Bool
  | [] => true
  | (_, c) :: rest => goodIndexB L c && goodChildrenB L rest

end


/-- The buffer for the C2 witness (16 bytes). -/
def c2Nar : List Char := "0123456789abcdef".toList

/-- The index for the C2 witness: a directory (with the as-built
engaged-zero stat) holding one file whose content is bytes 5–6 of the
buffer. -/
def c2Tree : NarMember :=
  .mk { type := .tDirectory, fileSize := some 0, isExecutable := false,
        narOffset := some 0 } ""
    [("f", .mk { type := .tRegular, fileSize := some 2,
                 isExecutable := false, narOffset := some 5 } "" [])]

/-- The event stream from which `c2Tree` is built: the C2 counterexample
runs the indexer on it and round-trips the result. -/
def c2Events : List NarEvent :=
  [.readBytes 1, .createDirectory [], .readBytes 2,
   .createRegularFile ["f"], .readBytes 2, .preallocateContents 2,
   .readBytes 2]

mutual

/-- What re-importing a deep export gives back, node for node: regular and
symlink nodes unchanged, but every directory's stat reduced to the importer's
`{.type = Type::tDirectory}` — the exporter emits neither `size` nor
`narOffset` for directories, so their engaged-zero optionals are lost. -/
def stripDir : NarMember → NarMember
  | .mk st tg cs =>
    .mk (if st.type = .tDirectory then { type := .tDirectory } else st) tg
      (stripChildren cs)

def stripChildren : List (String × NarMember) → List (String × NarMember)
  | [] => []
  | (n, c) :: rest => (n, stripDir c) :: stripChildren rest

end


inductive FsSpec where
  | dir (pad : Nat) (entries : List (String × FsSpec))
  | file (pad₁ pad₂ : Nat) (exec : Bool) (size : Nat)
  | symlink (pad : Nat) (target : String)

mutual

/-- The event stream the archive parser delivers for a declaration tree
rooted at path `p` (segments; the C++ path's separator count is `p.length`). -/
def genEvents (p : List String) : FsSpec → List NarEvent
  | .dir pad es => .readBytes pad :: .createDirectory p :: genChildren p es
  | .file a b ex sz =>
    .readBytes a :: .createRegularFile p ::
      ((if ex then [.isExecutable] else []) ++
       [.readBytes b, .preallocateContents sz, .readBytes sz])
  | .symlink pad tg => [.readBytes pad, .createSymlink p tg]

def genChildren (p : List String) : List (String × FsSpec) → List NarEvent
  | [] => []
  | (n, c) :: rest => genEvents (p ++ [n]) c ++ genChildren p rest

end


mutual

/-- Total bytes the stream for a subtree consumes. -/
def specSize : FsSpec → Nat
  | .dir pad es => pad + specSizeChildren es
  | .file a b _ sz => a + b + sz
  | .symlink pad _ => pad

def specSizeChildren : List (String × FsSpec) → Nat
  | [] => 0
  | (_, c) :: rest => specSize c + specSizeChildren rest

end


mutual

/-- The tree the indexer is expected to build for a subtree whose stream
starts at byte position `pos`: a regular file's `narOffset` is the counter at
its declaration, `pos + pad₁ + pad₂`. -/
def specTree (pos : Nat) : FsSpec → NarMember
  | .dir pad es => .mk dirStat "" (specChildrenAux [] (pos + pad) es)
  | .file a b ex sz =>
    .mk { type := .tRegular, fileSize := some sz, isExecutable := ex,
          narOffset := some (pos + a + b) } "" []
  | .symlink _ tg => .mk { type := .tSymlink } tg []

/-- The children map, built exactly as the indexer builds it: each child
emplaced when its create event arrives, positions accumulating. -/
def specChildrenAux (acc : List (String × NarMember)) (pos : Nat) :
    List (String × FsSpec) → List (String × NarMember)
  | [] => acc
  | (n, c) :: rest =>
    specChildrenAux (emplaceChild acc n (specTree pos c)) (pos + specSize c) rest

end


/-- `n` is not a key of the entry list. -/
def keyAbsentB (n : String) : List (String × FsSpec) → Bool
  | [] => true
  | (k, _) :: rest => !(n == k) && keyAbsentB n rest

/-- Sibling names are pairwise distinct. -/
def keysNodupB : List (String × FsSpec) → Bool
  | [] => true
  | (n, _) :: rest => keyAbsentB n rest && keysNodupB rest

mutual

/-- Well-formedness of a declaration tree: sibling names are distinct at
every directory (the NAR grammar requires directory entries sorted, hence
distinct; distinctness is all the mirroring needs). -/
def wfSpecB : FsSpec → Bool
  | .dir _ es => keysNodupB es && wfChildrenB es
  | .file _ _ _ _ => true
  | .symlink _ _ => true

def wfChildrenB : List (String × FsSpec) → Bool
  | [] => true
  | (_, c) :: rest => wfSpecB c && wfChildrenB rest

end


mutual

/-- The rightmost preorder spine under a node: the relative path of the last
entry created in its subtree (the node the parent stack still points into
when the subtree's stream ends). -/
def spine : FsSpec → List String
  | .dir _ es => spineChildren es
  | .file _ _ _ _ => []
  | .symlink _ _ => []

def spineChildren : List (String × FsSpec) → List String
  | [] => []
  | [(n, c)] => n :: spine c
  | _ :: rest => spineChildren rest

end


/-- The parent stack while the node at path `q` is current: `q` and all its
prefixes, innermost first (each stack entry embeds one stored pointer). -/
def chainOf : List String → List (List String)
  | [] => [[]]
  | a :: as => (a :: as) :: chainOf (a :: as).dropLast
termination_by q => q.length
decreasing_by
  all_goals simp_wf
  all_goals simp [List.length_dropLast]

/-- Inserting a finished subtree: the whole root when `p` is empty, else a
fresh child of the node at `p.dropLast` keyed by `p`'s base name. -/
def insertSub (root : NarMember) (p : List String) (m : NarMember) : NarMember :=
  match p with
  | [] => m
  | _ :: _ =>
    updateAt root p.dropLast (fun d =>
      .mk d.stat d.target (emplaceChild d.children (baseName p) m))


/-- The emplacing update function of `createMember`. -/
def emplaceInto (bn : String) (m : NarMember) : NarMember → NarMember :=
  fun d => .mk d.stat d.target (emplaceChild d.children bn m)

/-- The stack/tree context a non-root create needs. -/
def ctxOk (root : NarMember) (p q : List String) : Prop :=
  p.length - 1 ≤ q.length ∧ q.take (p.length - 1) = p.dropLast ∧
  ∃ d, rawFind root p.dropLast = some d ∧ d.stat.type = .tDirectory ∧
    lookupChild d.children (baseName p) = none

/-- The simulation property of one subtree: from any state whose stack is a
chain and can legally receive the subtree's root (or at the stream root),
running the subtree's events inserts exactly the expected tree, leaves the
stack on the subtree's rightmost spine and advances the counter by the
subtree's byte count. -/
def GenRunP (s : FsSpec) : Prop :=
  ∀ (p q : List String) (stk : List (List String)) (root : NarMember)
    (pos : Nat), wfSpecB s = true →
    (p = [] ∨ (stk = chainOf q ∧ ctxOk root p q)) →
    runE (genEvents p s) (.ok ⟨root, stk, pos⟩) =
      .ok ⟨insertSub root p (specTree pos s), chainOf (p ++ spine s),
           pos + specSize s⟩

/-- The stack's residual spine after a children fold: unchanged when there
were no children, else the spine of the last child. -/
def spineAfter (qtail : List String) : List (String × FsSpec) → List String
  | [] => qtail
  | e :: es' => spineChildren (e :: es')

/-- Spec-side sibling lookup, accumulating the byte position at which each
entry's stream starts (first match, like `std::map` insertion keeping the
first duplicate). -/
def entriesFind (pos : Nat) : List (String × FsSpec) → String → Option (Nat × FsSpec)
  | [], _ => none
  | (k, c) :: rest, n =>
    if n = k then some (pos, c) else entriesFind (pos + specSize c) rest n

/-- Spec-side path resolution: descends only through directories, returning
the found declaration and the byte position at which its stream starts. -/
def specFind : Nat → FsSpec → List String → Option (Nat × FsSpec)
  | pos, s, [] => some (pos, s)
  | pos, .dir pad es, n :: rest =>
    (match entriesFind (pos + pad) es n with
     | some x => specFind x.1 x.2 rest
     | none => none)
  | _, .file _ _ _ _, _ :: _ => none
  | _, .symlink _ _, _ :: _ => none
termination_by _ _ p => p.length

/-- The spec §8 example, with framing pads: `/a` (directory), `/a/b.txt`
(regular, executable, size 2), `/a/c` (symlink to `b.txt`). -/
def c1Spec : FsSpec :=
  .dir 20 [("a", .dir 30 [("b.txt", .file 25 8 true 2),
                          ("c", .symlink 12 "b.txt")])]

/-! # Theorems -/

@[simp] theorem NarMember.stat_mk (s : Stat) (t : String)
    (c : List (String × NarMember)) : (NarMember.mk s t c).stat = s := rfl

@[simp] theorem NarMember.target_mk (s : Stat) (t : String)
    (c : List (String × NarMember)) : (NarMember.mk s t c).target = t := rfl

@[simp] theorem NarMember.children_mk (s : Stat) (t : String)
    (c : List (String × NarMember)) : (NarMember.mk s t c).children = c := rfl

/-! ## The streaming indexer (`NarAccessor::NarIndexer`)

The external archive parser (`parseDump`, not part of this file's sources)
drives the indexer through the `ParseSink` callbacks while reading bytes
through the indexer's `read` wrapper.  That interaction is embedded as a list
of events: the four callbacks that carry data, plus `readBytes n` for each
read of `n` bytes through the wrapper (`receiveContents` and
`closeRegularFile` are no-ops in the source and carry no data). -/

@[simp] theorem runE_nil (r : Except IndexError IndexerState) : runE [] r = r := rfl

@[simp] theorem runE_cons_ok (e : NarEvent) (evs : List NarEvent)
    (st : IndexerState) : runE (e :: evs) (.ok st) = runE evs (step st e) := rfl

@[simp] theorem runE_cons_error (e : NarEvent) (evs : List NarEvent)
    (err : IndexError) : runE (e :: evs) (.error err) = .error err := rfl

theorem runE_error (evs : List NarEvent) (err : IndexError) :
    runE evs (.error err) = .error err := by
  cases evs <;> rfl

theorem runE_append (evs₁ evs₂ : List NarEvent)
    (r : Except IndexError IndexerState) :
    runE (evs₁ ++ evs₂) r = runE evs₂ (runE evs₁ r) := by
  induction evs₁ generalizing r with
  | nil => rfl
  | cons e evs ih =>
    cases r with
    | ok st => simpa using ih (step st e)
    | error err => simp [runE_error]

/-! ## The textual listing (`nlohmann::json` values)

Only the value structure matters to the sources (the encode/decode layer is
an external collaborator); objects are association lists of fields. -/

theorem sizeOf_jlookup {kvs : List (String × Json)} {k : String} {j : Json}
    (h : jlookup kvs k = some j) : sizeOf j < sizeOf kvs := by
  induction kvs with
  | nil => simp [jlookup] at h
  | cons hd rest ih =>
    obtain ⟨k', v⟩ := hd
    by_cases hk : k = k'
    · simp [jlookup, hk] at h
      subst h
      simp only [List.cons.sizeOf_spec, Prod.mk.sizeOf_spec]
      omega
    · simp [jlookup, hk] at h
      have := ih h
      simp only [List.cons.sizeOf_spec, Prod.mk.sizeOf_spec]
      omega

/-- The accessor query at the extended path reaches exactly the child the
exporter recurses into, which justifies exporting structurally. -/
theorem find_append_child (t : NarMember) (p : List String) (m c : NarMember)
    (n : String) (hm : find t p = some m) (hdir : m.stat.type = .tDirectory)
    (hc : lookupChild m.children n = some c) :
    find t (p ++ [n]) = some c := by
  induction p generalizing t with
  | nil =>
    simp [find] at hm
    subst hm
    simp [find, hdir, hc]
  | cons a rest ih =>
    simp only [find] at hm
    by_cases hty : t.stat.type = .tDirectory
    · simp only [hty, if_pos rfl] at hm
      cases hl : lookupChild t.children a with
      | none => rw [hl] at hm; exact absurd hm (by simp)
      | some c' =>
        rw [hl] at hm
        simp only [List.cons_append, find, hty, if_pos rfl, hl]
        exact ih c' hm
    · rw [if_neg hty] at hm
      exact absurd hm (by simp)

/-! ## The listing importer (`NarAccessor(listing, getNarBytes)`) -/

/-- `importDir` is the `jlookup`-then-iterate computation it inlines. -/
theorem importDir_eq_jlookup (m : NarMember) (kvs : List (String × Json)) :
    importDir m kvs = entriesCase m (jlookup kvs "entries") := by
  induction kvs with
  | nil => rfl
  | cons hd rest ih =>
    obtain ⟨k, v⟩ := hd
    by_cases hk : "entries" = k
    · subst hk
      simp [importDir, jlookup, entriesCase]
    · have h1 : importDir m ((k, v) :: rest) = importDir m rest := by
        simp [importDir, hk]
      have h2 : jlookup ((k, v) :: rest) "entries" = jlookup rest "entries" := by
        simp [jlookup, hk]
      rw [h1, h2]
      exact ih

/-! ## Structural induction over the nested tree type -/

/-- To prove `P` for every tree node it suffices to prove it for a node given
it for each child. -/
theorem NarMember.indChildren {P : NarMember → Prop}
    (h : ∀ st tg cs, (∀ x ∈ cs, P x.2) → P (.mk st tg cs)) : ∀ m, P m
  | .mk st tg cs => h st tg cs (fun x hx => NarMember.indChildren h x.2)
termination_by m => sizeOf m
decreasing_by
  simp_wf
  have h1 := List.sizeOf_lt_of_mem hx
  obtain ⟨a, b⟩ := x
  simp only [Prod.mk.sizeOf_spec] at h1 ⊢
  omega

/-! ## C7: a zero `narOffset` is never exported -/

theorem noZeroOffsetKvsB_append (l₁ l₂ : List (String × Json)) :
    noZeroOffsetKvsB (l₁ ++ l₂) = (noZeroOffsetKvsB l₁ && noZeroOffsetKvsB l₂) := by
  induction l₁ with
  | nil => simp [noZeroOffsetKvsB]
  | cons hd rest ih =>
    obtain ⟨k, v⟩ := hd
    simp [noZeroOffsetKvsB, ih, Bool.and_assoc]

/-- Every branch of the exporter produces an object. -/
theorem exportN_is_obj (m : NarMember) (r : Bool) (j : Json)
    (h : exportN m r = .ok j) : ∃ kvs, j = .obj kvs := by
  obtain ⟨st, tg, cs⟩ := m
  cases hty : st.type <;> simp only [exportN, hty] at h
  · exact ⟨_, (Except.ok.inj h).symm⟩
  · exact ⟨_, (Except.ok.inj h).symm⟩
  · cases hr : r with
    | true =>
      rw [hr] at h
      simp only [if_pos] at h
      cases hc : exportChildren cs with
      | ok es =>
        rw [hc] at h
        exact ⟨_, (Except.ok.inj h).symm⟩
      | error e =>
        rw [hc] at h
        exact absurd h (by simp)
    | false =>
      rw [hr] at h
      simp only [Bool.false_eq_true, if_false] at h
      exact ⟨_, (Except.ok.inj h).symm⟩
  · exact absurd h (by simp)

/-- The exporter never emits a zero `narOffset` anywhere in its output. -/
theorem exportN_noZeroOffset (m : NarMember) :
    ∀ (r : Bool) (j : Json), exportN m r = .ok j → noZeroOffsetB j = true := by
  induction m using NarMember.indChildren with
  | h st tg cs ih =>
    intro r j h
    cases hty : st.type
    · -- regular
      simp only [exportN, hty] at h
      rw [← Except.ok.inj h]
      simp only [noZeroOffsetB, noZeroOffsetKvsB_append, Bool.and_eq_true]
      refine ⟨⟨?_, ?_⟩, ?_⟩
      · simp [noZeroOffsetKvsB, entryNotZeroOffset, noZeroOffsetB]
        cases st.fileSize <;> simp [noZeroOffsetKvsB, entryNotZeroOffset, noZeroOffsetB]
      · cases st.isExecutable <;>
          simp [noZeroOffsetKvsB, entryNotZeroOffset, noZeroOffsetB]
      · cases ho : st.narOffset with
        | none => simp [noZeroOffsetKvsB]
        | some o =>
          by_cases hz : o ≠ 0
          · simp [hz, noZeroOffsetKvsB, entryNotZeroOffset, noZeroOffsetB]
          · simp [hz, noZeroOffsetKvsB]
    · -- symlink
      simp only [exportN, hty] at h
      rw [← Except.ok.inj h]
      simp [noZeroOffsetB, noZeroOffsetKvsB, entryNotZeroOffset]
    · -- directory
      simp only [exportN, hty] at h
      cases hr : r with
      | true =>
        rw [hr, if_pos rfl] at h
        cases hc : exportChildren cs with
        | error e => rw [hc] at h; exact absurd h (by simp)
        | ok es =>
          rw [hc] at h
          rw [← Except.ok.inj h]
          have hes : noZeroOffsetKvsB es = true := by
            clear h
            induction cs generalizing es with
            | nil =>
              simp only [exportChildren, Except.ok.injEq] at hc
              rw [← hc]
              rfl
            | cons hd rest ihc =>
              obtain ⟨n, c⟩ := hd
              simp only [exportChildren] at hc
              cases hcx : exportN c true with
              | error e => rw [hcx] at hc; exact absurd hc (by simp)
              | ok jc =>
                rw [hcx] at hc
                cases hrest : exportChildren rest with
                | error e => rw [hrest] at hc; exact absurd hc (by simp)
                | ok js =>
                  rw [hrest] at hc
                  simp only [Except.ok.injEq] at hc
                  rw [← hc]
                  have h₁ : noZeroOffsetB jc = true :=
                    ih (n, c) (by simp) true jc hcx
                  have h₂ : noZeroOffsetKvsB js = true :=
                    ihc (fun x hx => ih x (by simp [hx])) js hrest
                  obtain ⟨kvs₂, hobj⟩ := exportN_is_obj c true jc hcx
                  subst hobj
                  simp [noZeroOffsetKvsB, entryNotZeroOffset, h₁, h₂]
          simp [noZeroOffsetB, noZeroOffsetKvsB, entryNotZeroOffset, noZeroOffsetB, hes]
      | false =>
        rw [hr] at h
        simp only [Bool.false_eq_true, if_false] at h
        rw [← Except.ok.inj h]
        have hcs : noZeroOffsetKvsB (cs.map (fun c => (c.1, Json.obj []))) = true := by
          clear h ih
          induction cs with
          | nil => rfl
          | cons hd rest ihc =>
            simp [noZeroOffsetKvsB, entryNotZeroOffset, noZeroOffsetB, ihc]
        simp [noZeroOffsetB, noZeroOffsetKvsB, entryNotZeroOffset, noZeroOffsetB, hcs]
    · -- misc
      simp only [exportN, hty] at h
      exact absurd h (by simp)

/-- C7: an exported listing never carries a `narOffset` field equal to zero
anywhere, and for a listing of a Regular node the optional fields are
emitted exactly under the source's conditions: `narOffset` iff recorded and
nonzero, `size` iff `fileSize` is recorded, `executable` iff the flag is
set (and then with value `true`). -/
theorem listNar_no_zero_offset (t : NarMember) (p : List String) (r : Bool)
    (j : Json) (h : listNar t p r = .ok j) :
    noZeroOffsetB j = true ∧
    (∀ m, find t p = some m → m.stat.type = .tRegular →
      (∀ x, jfield j "narOffset" = some x ↔
         ∃ o, m.stat.narOffset = some o ∧ o ≠ 0 ∧ x = .num o) ∧
      (∀ x, jfield j "size" = some x ↔
         ∃ s, m.stat.fileSize = some s ∧ x = .num s) ∧
      (∀ x, jfield j "executable" = some x ↔
         m.stat.isExecutable = true ∧ x = .bool true)) := by
  unfold listNar at h
  cases hf : find t p with
  | none => rw [hf] at h; exact absurd h (by simp)
  | some m =>
    rw [hf] at h
    refine ⟨exportN_noZeroOffset m r j h, ?_⟩
    intro m' hm' hreg
    injection hm' with hmm
    subst hmm
    obtain ⟨st, tg, cs⟩ := m
    simp only [NarMember.stat_mk] at hreg
    simp only [exportN, hreg] at h
    rw [← Except.ok.inj h]
    cases hno : st.narOffset with
    | none =>
      cases hfs : st.fileSize <;> cases hex : st.isExecutable <;>
        refine ⟨fun x => ?_, fun x => ?_, fun x => ?_⟩ <;>
        simp [jfield, jlookup, hfs, hex, hno, eq_comm]
    | some o =>
      by_cases hz : o = 0
      · subst hz
        cases hfs : st.fileSize <;> cases hex : st.isExecutable <;>
          refine ⟨fun x => ?_, fun x => ?_, fun x => ?_⟩ <;>
          simp [jfield, jlookup, hfs, hex, hno, eq_comm]
      · cases hfs : st.fileSize <;> cases hex : st.isExecutable <;>
          refine ⟨fun x => ?_, fun x => ?_, fun x => ?_⟩ <;>
          simp [jfield, jlookup, hfs, hex, hno, hz, eq_comm]

/-- C7 witness: the deep listing of `c7Tree` carries no zero `narOffset`
(the `z` child's recorded offset 0 is dropped, its size 0 still emitted),
and the field-emission characterisation holds at the zero-offset node. -/
theorem listNar_no_zero_offset_witness :
    (listNar c7Tree [] true = .ok c7Listing ∧ noZeroOffsetB c7Listing = true) ∧
    (listNar c7Tree ["z"] true = .ok c7ZListing ∧
     (∀ x, jfield c7ZListing "narOffset" = some x ↔
        ∃ o, c7ZNode.stat.narOffset = some o ∧ o ≠ 0 ∧ x = .num o)) :=
  ⟨⟨rfl, (listNar_no_zero_offset c7Tree [] true c7Listing rfl).1⟩,
   ⟨rfl, ((listNar_no_zero_offset c7Tree ["z"] true c7ZListing rfl).2
      c7ZNode rfl rfl).1⟩⟩

/-! ## C9: shallow export names children; deep export embeds full listings -/

theorem find_append (t : NarMember) (p q : List String) :
    find t (p ++ q) = (find t p).bind (fun m => find m q) := by
  induction p generalizing t with
  | nil => simp [find]
  | cons n rest ih =>
    simp only [List.cons_append, find]
    by_cases hd : t.stat.type = .tDirectory
    · simp only [if_pos hd]
      cases lookupChild t.children n with
      | none => simp
      | some c => simpa using ih c
    · simp [if_neg hd]

/-- A deep export embeds, under each child name, exactly that child's own
deep export. -/
theorem exportChildren_lookup (cs : List (String × NarMember))
    (es : List (String × Json)) (n : String) (c : NarMember)
    (hc : exportChildren cs = .ok es) (hl : lookupChild cs n = some c) :
    ∃ jc, jlookup es n = some jc ∧ exportN c true = .ok jc := by
  induction cs generalizing es with
  | nil => simp [lookupChild] at hl
  | cons hd rest ih =>
    obtain ⟨k, c₀⟩ := hd
    simp only [exportChildren] at hc
    cases hcx : exportN c₀ true with
    | error e => rw [hcx] at hc; exact absurd hc (by simp)
    | ok j₀ =>
      rw [hcx] at hc
      cases hrest : exportChildren rest with
      | error e => rw [hrest] at hc; exact absurd hc (by simp)
      | ok js =>
        rw [hrest] at hc
        simp only [Except.ok.injEq] at hc
        subst hc
        by_cases hk : n = k
        · subst hk
          simp [lookupChild] at hl
          subst hl
          exact ⟨j₀, by simp [jlookup], hcx⟩
        · simp only [lookupChild, if_neg hk] at hl
          obtain ⟨jc, h₁, h₂⟩ := ih js hrest hl
          exact ⟨jc, by simp [jlookup, hk, h₁], h₂⟩

/-- Descending a deep export along any resolving path lands on the full
export of the node found there. -/
theorem exportN_descend (q : List String) :
    ∀ (m : NarMember) (j : Json) (m' : NarMember),
      exportN m true = .ok j → find m q = some m' →
      ∃ j', jdescend j q = some j' ∧ exportN m' true = .ok j' := by
  induction q with
  | nil =>
    intro m j m' hj hf
    simp only [find, Option.some.injEq] at hf
    subst hf
    exact ⟨j, rfl, hj⟩
  | cons n rest ih =>
    intro m j m' hj hf
    obtain ⟨st, tg, cs⟩ := m
    simp only [find] at hf
    by_cases hd : st.type = .tDirectory
    · simp only [NarMember.stat_mk, NarMember.children_mk, if_pos hd] at hf
      cases hl : lookupChild cs n with
      | none => rw [hl] at hf; exact absurd hf (by simp)
      | some c =>
        rw [hl] at hf
        simp only [exportN, hd, if_pos rfl] at hj
        cases hce : exportChildren cs with
        | error e => rw [hce] at hj; exact absurd hj (by simp)
        | ok es =>
          rw [hce] at hj
          rw [← Except.ok.inj hj]
          obtain ⟨jc, hjc, hjx⟩ := exportChildren_lookup cs es n c hce hl
          obtain ⟨j', hd₁, hd₂⟩ := ih c jc m' hjx hf
          refine ⟨j', ?_, hd₂⟩
          simp [jdescend, jChild, jfield, jlookup, hjc, hd₁]
    · simp only [NarMember.stat_mk, if_neg hd] at hf
      exact absurd hf (by simp)

/-- C9: for a directory node, the shallow (non-recursive) export's `entries`
object holds exactly the directory's immediate child names, each mapped to
an empty object; the deep (recursive) export embeds, along every resolving
descendant path (directories of depth 2 and more included), the full listing
of the descendant found there. -/
theorem listNar_shallow_deep (t : NarMember) (p : List String) (m : NarMember)
    (hf : find t p = some m) (hdir : m.stat.type = .tDirectory) :
    (∀ j, listNar t p false = .ok j →
       jfield j "entries" =
         some (.obj (m.children.map (fun c => (c.1, Json.obj []))))) ∧
    (∀ j, listNar t p true = .ok j →
       ∀ q m', find t (p ++ q) = some m' →
         ∃ j', jdescend j q = some j' ∧ exportN m' true = .ok j') := by
  constructor
  · intro j hj
    unfold listNar at hj
    rw [hf] at hj
    obtain ⟨st, tg, cs⟩ := m
    simp only [NarMember.stat_mk] at hdir
    simp only [exportN, hdir] at hj
    simp only [Bool.false_eq_true, if_false] at hj
    rw [← Except.ok.inj hj]
    simp [jfield, jlookup]
  · intro j hj q m' hq
    unfold listNar at hj
    rw [hf] at hj
    rw [find_append, hf] at hq
    exact exportN_descend q m j m' hj hq

/-- C9 witness: on the depth-2 tree, the shallow export names `d` with an
empty object, and the deep export contains the leaf's full listing two
levels down. -/
theorem listNar_shallow_deep_witness :
    jfield c9Shallow "entries" =
      some (.obj (c9Tree.children.map (fun c => (c.1, Json.obj [])))) ∧
    (∃ j', jdescend c9Deep ["d", "f"] = some j' ∧
       exportN c9Leaf true = .ok j') :=
  ⟨(listNar_shallow_deep c9Tree [] c9Tree rfl rfl).1 c9Shallow rfl,
   (listNar_shallow_deep c9Tree [] c9Tree rfl rfl).2 c9Deep rfl ["d", "f"]
     c9Leaf rfl⟩

/-! ## C8: unknown entry types are skipped, not failed -/

/-- C8: a listing entry whose `type` is none of `"directory"`, `"regular"`,
`"symlink"` does not fail the import: the node is left exactly as it was
(for a directory entry being imported, the zero-value placeholder
`operator[]` default-constructed), and the importer continues with the
remaining entries of the enclosing directory. -/
theorem import_unknown_type_lenient :
    (∀ (m : NarMember) (kvs : List (String × Json)) (ty : String),
       jlookup kvs "type" = some (.str ty) →
       ty ≠ "directory" → ty ≠ "regular" → ty ≠ "symlink" →
       importInto m (.obj kvs) = .ok m) ∧
    (∀ (cs : List (String × NarMember)) (n : String)
       (bad rest : List (String × Json)) (ty : String),
       jlookup bad "type" = some (.str ty) →
       ty ≠ "directory" → ty ≠ "regular" → ty ≠ "symlink" →
       lookupChild cs n = none →
       importEntries cs ((n, .obj bad) :: rest) =
         importEntries (setChild cs n defaultMember) rest) := by
  have main : ∀ (m : NarMember) (kvs : List (String × Json)) (ty : String),
      jlookup kvs "type" = some (.str ty) →
      ty ≠ "directory" → ty ≠ "regular" → ty ≠ "symlink" →
      importInto m (.obj kvs) = .ok m := by
    intro m kvs ty h h1 h2 h3
    simp [importInto, vField, h, asString, h1, h2, h3]
  refine ⟨main, ?_⟩
  intro cs n bad rest ty h h1 h2 h3 hlc
  simp only [importEntries, hlc, Option.getD_none, main defaultMember bad ty h h1 h2 h3]

/-- C8 witness: a directory whose first entry has the unrecognised type
`"future"` imports to a tree holding a zero-value placeholder under that
name next to its properly imported sibling. -/
theorem import_unknown_type_lenient_witness :
    importInto defaultMember (.obj [("type", .str "future"), ("x", .num 3)]) =
      .ok defaultMember ∧
    importEntries [] [("weird", .obj [("type", .str "future")])] =
      importEntries (setChild [] "weird" defaultMember) [] := by
  constructor
  · exact import_unknown_type_lenient.1 defaultMember
      [("type", .str "future"), ("x", .num 3)] "future" rfl
      (by decide) (by decide) (by decide)
  · exact import_unknown_type_lenient.2 [] "weird"
      [("type", .str "future")] [] "future" rfl
      (by decide) (by decide) (by decide) rfl

/-! ## C10: `size` and `narOffset` are mandatory for regular entries -/

/-- C10: importing a listing object of type `"regular"` that omits `"size"`
or `"narOffset"` fails with a decode error (the field reads have no default,
unlike `executable` and `target`), instead of producing a Regular node with
the field absent. -/
theorem import_regular_requires_size_offset (m : NarMember)
    (kvs : List (String × Json))
    (hty : jlookup kvs "type" = some (.str "regular"))
    (hmiss : jlookup kvs "size" = none ∨ jlookup kvs "narOffset" = none) :
    ∃ e, importInto m (.obj kvs) = .error e := by
  rcases hmiss with hs | ho
  · refine ⟨.typeErr, ?_⟩
    simp [importInto, vField, hty, asString, hs, asNat]
  · cases hs : jlookup kvs "size" with
    | none =>
      refine ⟨.typeErr, ?_⟩
      simp [importInto, vField, hty, asString, hs, asNat]
    | some sj =>
      cases sj with
      | num sz =>
        cases hex : jlookup kvs "executable" with
        | none =>
          refine ⟨.typeErr, ?_⟩
          simp [importInto, vField, hty, asString, hs, asNat, valueBool, hex, ho]
        | some ej =>
          cases ej with
          | bool b =>
            refine ⟨.typeErr, ?_⟩
            simp [importInto, vField, hty, asString, hs, asNat, valueBool, hex, ho]
          | null =>
            refine ⟨.typeErr, ?_⟩
            simp [importInto, vField, hty, asString, hs, asNat, valueBool, hex]
          | num k =>
            refine ⟨.typeErr, ?_⟩
            simp [importInto, vField, hty, asString, hs, asNat, valueBool, hex]
          | str s =>
            refine ⟨.typeErr, ?_⟩
            simp [importInto, vField, hty, asString, hs, asNat, valueBool, hex]
          | obj kvs₂ =>
            refine ⟨.typeErr, ?_⟩
            simp [importInto, vField, hty, asString, hs, asNat, valueBool, hex]
      | null =>
        refine ⟨.typeErr, ?_⟩
        simp [importInto, vField, hty, asString, hs, asNat]
      | bool b =>
        refine ⟨.typeErr, ?_⟩
        simp [importInto, vField, hty, asString, hs, asNat]
      | str s =>
        refine ⟨.typeErr, ?_⟩
        simp [importInto, vField, hty, asString, hs, asNat]
      | obj kvs₂ =>
        refine ⟨.typeErr, ?_⟩
        simp [importInto, vField, hty, asString, hs, asNat]

/-- C10 witness: a regular entry carrying only `narOffset` (as after the
exporter omitted an unknown size), and one carrying only `size` (as after
the exporter dropped a zero offset), both fail to import. -/
theorem import_regular_requires_size_offset_witness :
    (∃ e, importJson (.obj [("type", .str "regular"), ("narOffset", .num 5)]) =
      .error e) ∧
    (∃ e, importJson (.obj [("type", .str "regular"), ("size", .num 2)]) =
      .error e) :=
  ⟨import_regular_requires_size_offset defaultMember
      [("type", .str "regular"), ("narOffset", .num 5)] rfl (Or.inl rfl),
   import_regular_requires_size_offset defaultMember
      [("type", .str "regular"), ("size", .num 2)] rfl (Or.inr rfl)⟩

/-! ## C6: `stat` / `maybeStat` agreement -/

/-- C6: for every index and path, `maybeLstat` returns `some s` exactly when
`lstat` returns `s`, and `none` exactly when `lstat` fails with `NotFound`;
`maybeLstat` itself is a total function into `Option Stat` and never fails. -/
theorem maybeLstat_lstat_agree (t : NarMember) (p : List String) :
    (∀ s : Stat, maybeLstat t p = some s ↔ lstat t p = .ok s) ∧
    (maybeLstat t p = none ↔ lstat t p = .error .notFound) := by
  constructor
  · intro s
    unfold lstat
    cases h : maybeLstat t p <;> simp
  · unfold lstat
    cases h : maybeLstat t p <;> simp

/-! ## C5: `readFile` on a `Regular` node lacking offset/size -/

/-- C5 counterexample: on a Regular node with no recorded `narOffset` or
`fileSize`, `readFile` does not report an inconsistent-index error as the
claim states: the source dereferences the disengaged optionals — undefined
behaviour, embedded as the distinguished `ubDeref` outcome. -/
theorem readFile_missing_fields_cex :
    brokenRegular.stat.type = .tRegular ∧
    brokenRegular.stat.narOffset = none ∧
    brokenRegular.stat.fileSize = none ∧
    find brokenRegular [] = some brokenRegular ∧
    readFileOwned [] brokenRegular [] = .error .ubDeref ∧
    readFileOwned [] brokenRegular [] ≠ .error .inconsistentIndex := by
  refine ⟨rfl, rfl, rfl, rfl, rfl, ?_⟩
  intro h
  exact absurd (Except.error.inj h) (by decide)

/-- C5 amended: for every path resolving to a Regular node that has no
recorded `narOffset` or `fileSize`, `readFile` (under either content
strategy) dereferences the disengaged optionals — undefined behaviour,
embedded as the `ubDeref` outcome — instead of reporting an
inconsistent-index error.  (Neither constructor produces such a node: the
indexer's `preallocateContents` sets both and the importer requires both.) -/
theorem readFile_missing_fields_ub (content : Nat → Nat → Except AccErr (List Char))
    (t m : NarMember) (p : List String) (hf : find t p = some m)
    (hr : m.stat.type = .tRegular)
    (hmiss : m.stat.narOffset = none ∨ m.stat.fileSize = none) :
    readFileWith content t p = .error .ubDeref := by
  unfold readFileWith
  rw [hf]
  simp only [hr, if_pos]
  cases ho : m.stat.narOffset with
  | none => rfl
  | some o =>
    cases hs : m.stat.fileSize with
    | none => rfl
    | some s =>
      rw [ho, hs] at hmiss
      rcases hmiss with h | h <;> exact absurd h (by simp)

/-- C5 amended, witness. -/
theorem readFile_missing_fields_ub_witness :
    readFileWith (fun _ _ => .ok []) brokenRegular [] = .error .ubDeref :=
  readFile_missing_fields_ub (fun _ _ => .ok []) brokenRegular brokenRegular []
    rfl rfl (Or.inl rfl)

/-! ## C4: a child declared under a non-directory fails the whole build -/

/-- C4: if some event of the stream declares a child path while the stack top
at insertion time (after popping to the path's depth) designates a node
previously entered as a regular file or symlink, the whole build fails with
the malformed-archive error `missingParent`, exposing no index. -/
theorem create_under_nonDirectory_fails (evs pre post : List NarEvent)
    (e : NarEvent) (p : List String) (st : IndexerState) (node : NarMember)
    (parent : List String) (rest : List (List String))
    (hsplit : evs = pre ++ e :: post)
    (hrun : runE pre (.ok initState) = .ok st)
    (hp : createdPath e = some p)
    (hpop : popTo st.parents p.length = parent :: rest)
    (hnode : rawFind st.root parent = some node)
    (hty : node.stat.type = .tRegular ∨ node.stat.type = .tSymlink) :
    runIndexer evs = .error (.missingParent p) := by
  have hnd : ¬ (node.stat.type = .tDirectory) := by
    rcases hty with h | h <;> rw [h] <;> simp
  have hstep : ∀ member, createMember st p member = .error (.missingParent p) := by
    intro member
    unfold createMember
    rw [hpop]
    simp only
    rw [hnode]
    simp only [if_neg hnd]
  have hse : step st e = .error (.missingParent p) := by
    cases e with
    | createDirectory q =>
      cases hp
      exact hstep _
    | createRegularFile q =>
      cases hp
      exact hstep _
    | createSymlink q tg =>
      cases hp
      exact hstep _
    | isExecutable => exact absurd hp (by simp [createdPath])
    | preallocateContents n => exact absurd hp (by simp [createdPath])
    | readBytes n => exact absurd hp (by simp [createdPath])
  subst hsplit
  unfold runIndexer
  rw [runE_append, hrun, runE_cons_ok, hse, runE_error]

/-- C4 witness: a directory entered under a path previously entered as a
regular file aborts the build with `missingParent`. -/
theorem create_under_nonDirectory_fails_witness :
    runIndexer [.createRegularFile [], .createDirectory ["x"]] =
      .error (.missingParent ["x"]) :=
  create_under_nonDirectory_fails
    [.createRegularFile [], .createDirectory ["x"]]
    [.createRegularFile []] [] (.createDirectory ["x"]) ["x"]
    ⟨.mk { type := .tRegular, fileSize := some 0, isExecutable := false,
           narOffset := some 0 } "" [], [[]], 0⟩
    (.mk { type := .tRegular, fileSize := some 0, isExecutable := false,
           narOffset := some 0 } "" []) [] []
    rfl rfl rfl rfl rfl (Or.inl rfl)

/-! ## C3: the byte-position counter and `narOffset` recording -/

/-- `createMember` characterised by the shape of the popped stack: an empty
stack replaces the root and resets the stack to the root pointer; a nonempty
one with a directory on top emplaces the member as its child and pushes it;
a non-directory on top raises `missingParent`.  `pos` is never changed. -/
theorem createMember_spec (st : IndexerState) (p : List String)
    (member : NarMember) :
    (popTo st.parents p.length = [] →
       createMember st p member = .ok ⟨member, [[]], st.pos⟩) ∧
    (∀ parent rest node, popTo st.parents p.length = parent :: rest →
       rawFind st.root parent = some node →
       (node.stat.type = .tDirectory →
          createMember st p member =
            .ok ⟨updateAt st.root parent (fun d =>
                   .mk d.stat d.target
                     (emplaceChild d.children (baseName p) member)),
                 (parent ++ [baseName p]) :: parent :: rest, st.pos⟩) ∧
       (node.stat.type ≠ .tDirectory →
          createMember st p member = .error (.missingParent p))) := by
  constructor
  · intro hpp
    unfold createMember
    rw [hpp]
  · intro parent rest node hpp hrf
    constructor
    · intro hd
      unfold createMember
      rw [hpp]
      simp only
      rw [hrf]
      simp only [if_pos hd]
    · intro hd
      unfold createMember
      rw [hpp]
      simp only
      rw [hrf]
      simp only [if_neg hd]

theorem createMember_pos (st : IndexerState) (p : List String)
    (member : NarMember) (st' : IndexerState)
    (h : createMember st p member = .ok st') : st'.pos = st.pos := by
  obtain ⟨h₁, h₂⟩ := createMember_spec st p member
  cases hpp : popTo st.parents p.length with
  | nil =>
    rw [h₁ hpp] at h
    simp only [Except.ok.injEq] at h
    subst h
    rfl
  | cons parent rest =>
    cases hrf : rawFind st.root parent with
    | none =>
      unfold createMember at h
      rw [hpp] at h
      simp only at h
      rw [hrf] at h
      exact absurd h (by simp)
    | some node =>
      obtain ⟨hd₁, hd₂⟩ := h₂ parent rest node hpp hrf
      by_cases hd : node.stat.type = .tDirectory
      · rw [hd₁ hd] at h
        simp only [Except.ok.injEq] at h
        subst h
        rfl
      · rw [hd₂ hd] at h
        exact absurd h (by simp)

theorem step_pos (st : IndexerState) (e : NarEvent) (st' : IndexerState)
    (h : step st e = .ok st') :
    st'.pos = st.pos + (match e with | .readBytes n => n | _ => 0) := by
  cases e with
  | readBytes n =>
    simp only [step] at h
    cases h
    rfl
  | isExecutable =>
    simp only [step] at h
    cases hp : st.parents with
    | nil => rw [hp] at h; exact absurd h (by simp)
    | cons a b =>
      rw [hp] at h
      simp only [Except.ok.injEq] at h
      subst h
      rfl
  | preallocateContents n =>
    simp only [step] at h
    cases hp : st.parents with
    | nil => rw [hp] at h; exact absurd h (by simp)
    | cons a b =>
      rw [hp] at h
      simp only [Except.ok.injEq] at h
      subst h
      rfl
  | createDirectory p =>
    simp only [step] at h
    simpa using createMember_pos _ _ _ _ h
  | createRegularFile p =>
    simp only [step] at h
    simpa using createMember_pos _ _ _ _ h
  | createSymlink p tg =>
    simp only [step] at h
    simpa using createMember_pos _ _ _ _ h

theorem declarePositions_ge (evs : List NarEvent) :
    ∀ (pos : Nat) (q : Nat), q ∈ declarePositions pos evs → pos ≤ q := by
  induction evs with
  | nil => intro pos q h; exact absurd h (by simp [declarePositions])
  | cons e rest ih =>
    intro pos q h
    cases e with
    | readBytes n =>
      have := ih (pos + n) q h
      omega
    | preallocateContents sz =>
      simp only [declarePositions, List.mem_cons] at h
      rcases h with h | h
      · omega
      · exact ih pos q h
    | createDirectory p => exact ih pos q h
    | createRegularFile p => exact ih pos q h
    | createSymlink p tg => exact ih pos q h
    | isExecutable => exact ih pos q h

/-- C3: (1) a read of `n` bytes advances the position counter by exactly `n`
and changes nothing else; (2) no step decreases the counter; (3) with a
nonempty stack, `declareContentSize` records the current counter — before any
content bytes are consumed, the counter and everything but the entered
file's stat being untouched — as that file's `narOffset` and the declared
size as its `fileSize`; (4) over a whole run the counter is the start
position plus the bytes read, so the positions captured at successive
declarations are non-decreasing in stream order. -/
theorem pos_counter_and_offsets_monotone :
    (∀ (st : IndexerState) (n : Nat),
       step st (.readBytes n) = .ok ⟨st.root, st.parents, st.pos + n⟩) ∧
    (∀ (st : IndexerState) (e : NarEvent) (st' : IndexerState),
       step st e = .ok st' → st.pos ≤ st'.pos) ∧
    (∀ (st : IndexerState) (sz : Nat) (top : List String)
       (rest : List (List String)), st.parents = top :: rest →
       step st (.preallocateContents sz) =
         .ok ⟨updateAt st.root top (fun m =>
                .mk { m.stat with fileSize := some sz, narOffset := some st.pos }
                  m.target m.children),
              st.parents, st.pos⟩) ∧
    (∀ (evs : List NarEvent) (st st' : IndexerState),
       runE evs (.ok st) = .ok st' → st'.pos = st.pos + totalRead evs) ∧
    (∀ (pos : Nat) (evs : List NarEvent),
       List.Chain' (· ≤ ·) (declarePositions pos evs)) := by
  refine ⟨fun st n => rfl, ?_, ?_, ?_, ?_⟩
  · intro st e st' h
    have := step_pos st e st' h
    cases e <;> omega
  · intro st sz top rest hp
    simp only [step, hp]
  · intro evs
    induction evs with
    | nil =>
      intro st st' h
      simp only [runE_nil] at h
      cases h
      simp [totalRead]
    | cons e rest ih =>
      intro st st' h
      rw [runE_cons_ok] at h
      cases hse : step st e with
      | error err => rw [hse, runE_error] at h; exact absurd h (by simp)
      | ok st₁ =>
        rw [hse] at h
        have h1 := ih st₁ st' h
        have h2 := step_pos st e st₁ hse
        cases e <;> simp only [totalRead] at h2 ⊢ <;> omega
  · intro pos evs
    induction evs generalizing pos with
    | nil => simp [declarePositions]
    | cons e rest ih =>
      cases e with
      | readBytes n => exact ih (pos + n)
      | preallocateContents sz =>
        simp only [declarePositions]
        rw [List.chain'_cons']
        exact ⟨fun q hq => declarePositions_ge rest pos q (List.mem_of_mem_head? hq),
               ih pos⟩
      | createDirectory p => exact ih pos
      | createRegularFile p => exact ih pos
      | createSymlink p tg => exact ih pos
      | isExecutable => exact ih pos

/-- C3 witness (the theorem's universally quantified parts have hypotheses):
at a concrete state with a nonempty stack, a declaration records the current
counter and a read advances it by exactly its size. -/
theorem pos_counter_and_offsets_monotone_witness :
    step ⟨defaultMember, [[]], 7⟩ (.preallocateContents 5) =
      .ok ⟨updateAt defaultMember [] (fun m =>
             .mk { m.stat with fileSize := some 5, narOffset := some 7 }
               m.target m.children),
           [[]], 7⟩ ∧
    runE [.readBytes 3] (.ok ⟨defaultMember, [], 2⟩) =
      .ok ⟨defaultMember, [], 2 + totalRead [.readBytes 3]⟩ := by
  constructor
  · exact pos_counter_and_offsets_monotone.2.2.1 ⟨defaultMember, [[]], 7⟩ 5 [] [] rfl
  · have h : runE [.readBytes 3] (.ok ⟨defaultMember, [], 2⟩) =
        .ok ⟨defaultMember, [], 5⟩ := rfl
    have := pos_counter_and_offsets_monotone.2.2.2.1 [.readBytes 3]
      ⟨defaultMember, [], 2⟩ ⟨defaultMember, [], 5⟩ h
    rw [h]
    simp [totalRead]

/-! ## C2: the export/import round trip preserves all queries -/

theorem sortedKeysB_tail {x : String × NarMember}
    {rest : List (String × NarMember)}
    (h : sortedKeysB (x :: rest) = true) : sortedKeysB rest = true := by
  cases rest with
  | nil => rfl
  | cons y ys =>
    obtain ⟨k₁, v₁⟩ := x
    obtain ⟨k₂, v₂⟩ := y
    simp only [sortedKeysB, Bool.and_eq_true] at h
    exact h.2

theorem sortedKeysB_head_lt {x : String × NarMember}
    {rest : List (String × NarMember)}
    (h : sortedKeysB (x :: rest) = true) : ∀ y ∈ rest, x.1 < y.1 := by
  induction rest generalizing x with
  | nil => intro y hy; exact absurd hy (by simp)
  | cons y ys ih =>
    intro z hz
    obtain ⟨k₁, v₁⟩ := x
    obtain ⟨k₂, v₂⟩ := y
    simp only [sortedKeysB, Bool.and_eq_true, decide_eq_true_eq] at h
    rcases List.mem_cons.1 hz with hz | hz
    · subst hz; exact h.1
    · exact lt_trans h.1 (ih h.2 z hz)

theorem goodChildrenB_mem {L : Nat} {cs : List (String × NarMember)}
    (h : goodChildrenB L cs = true) : ∀ x ∈ cs, goodIndexB L x.2 = true := by
  induction cs with
  | nil => intro x hx; exact absurd hx (by simp)
  | cons hd rest ih =>
    intro x hx
    obtain ⟨n, c⟩ := hd
    simp only [goodChildrenB, Bool.and_eq_true] at h
    rcases List.mem_cons.1 hx with hx | hx
    · subst hx; exact h.1
    · exact ih h.2 x hx

theorem lookupChild_mem {cs : List (String × NarMember)} {n : String}
    {c : NarMember} (h : lookupChild cs n = some c) : (n, c) ∈ cs := by
  induction cs with
  | nil => simp [lookupChild] at h
  | cons hd rest ih =>
    obtain ⟨k, v⟩ := hd
    by_cases hk : n = k
    · subst hk
      simp [lookupChild] at h
      subst h
      exact List.mem_cons_self _ _
    · simp only [lookupChild, if_neg hk] at h
      exact List.mem_cons_of_mem _ (ih h)

theorem lookupChild_none {cs : List (String × NarMember)} {n : String}
    (h : ∀ x ∈ cs, n ≠ x.1) : lookupChild cs n = none := by
  induction cs with
  | nil => rfl
  | cons hd rest ih =>
    obtain ⟨k, v⟩ := hd
    simp only [lookupChild, if_neg (h (k, v) (List.mem_cons_self _ _))]
    exact ih (fun x hx => h x (List.mem_cons_of_mem _ hx))

theorem setChild_append {cs : List (String × NarMember)} {n : String}
    {m : NarMember} (h : ∀ x ∈ cs, x.1 < n) : setChild cs n m = cs ++ [(n, m)] := by
  induction cs with
  | nil => rfl
  | cons hd rest ih =>
    obtain ⟨k, v⟩ := hd
    have hk : k < n := h (k, v) (List.mem_cons_self _ _)
    simp only [setChild, if_neg (asymm hk), if_neg (Ne.symm (ne_of_lt hk)),
      List.cons_append, List.cons.injEq, true_and]
    exact ih (fun x hx => h x (List.mem_cons_of_mem _ hx))

/-- Goodness propagates down `find`. -/
theorem goodIndexB_find {L : Nat} (p : List String) :
    ∀ (t m : NarMember), goodIndexB L t = true → find t p = some m →
      goodIndexB L m = true := by
  induction p with
  | nil =>
    intro t m hg hf
    simp only [find, Option.some.injEq] at hf
    subst hf
    exact hg
  | cons n rest ih =>
    intro t m hg hf
    obtain ⟨st, tg, cs⟩ := t
    simp only [find, NarMember.stat_mk, NarMember.children_mk] at hf
    by_cases hd : st.type = .tDirectory
    · rw [if_pos hd] at hf
      cases hl : lookupChild cs n with
      | none => rw [hl] at hf; exact absurd hf (by simp)
      | some c =>
        rw [hl] at hf
        have hmem := lookupChild_mem hl
        simp only [goodIndexB, hd, Bool.and_eq_true] at hg
        exact ih c m (goodChildrenB_mem hg.2 (n, c) hmem) hf
    · rw [if_neg hd] at hf
      exact absurd hf (by simp)

/-- The recorded content range of a good regular node. -/
theorem goodIndexB_regular {L : Nat} {m : NarMember}
    (hg : goodIndexB L m = true) (hr : m.stat.type = .tRegular) :
    ∃ s o, m.stat.fileSize = some s ∧ m.stat.narOffset = some o ∧
      o ≠ 0 ∧ o ≤ L := by
  obtain ⟨⟨ty, fs, ex, no⟩, tg, cs⟩ := m
  simp only [NarMember.stat_mk] at hr ⊢
  subst hr
  simp only [goodIndexB, Bool.and_eq_true] at hg
  cases fs with
  | none => cases no <;> simp at hg
  | some s =>
    cases no with
    | none => simp at hg
    | some o =>
      simp only [Bool.and_eq_true, decide_eq_true_eq] at hg
      exact ⟨s, o, rfl, rfl, hg.1.1.1, hg.1.1.2⟩

/-- Exporting then importing a list of good, sorted children appends their
stripped forms, one by one, onto any accumulator of strictly smaller keys. -/
theorem exportChildren_roundtrip (cs : List (String × NarMember))
    (hpt : ∀ x ∈ cs, ∃ jx, exportN x.2 true = .ok jx ∧
             importInto defaultMember jx = .ok (stripDir x.2)) :
    ∃ es, exportChildren cs = .ok es ∧
      ∀ acc, (∀ a ∈ acc, ∀ x ∈ cs, a.1 < x.1) → sortedKeysB cs = true →
        importEntries acc es = .ok (acc ++ stripChildren cs) := by
  induction cs with
  | nil => exact ⟨[], rfl, fun acc _ _ => by simp [importEntries, stripChildren]⟩
  | cons hd rest ihc =>
    obtain ⟨n, c⟩ := hd
    obtain ⟨jc, hjc, hic⟩ := hpt (n, c) (List.mem_cons_self _ _)
    obtain ⟨js, hjs, himp⟩ := ihc (fun x hx => hpt x (List.mem_cons_of_mem _ hx))
    refine ⟨(n, jc) :: js, by simp [exportChildren, hjc, hjs], ?_⟩
    intro acc hacc hsort
    have hlt : ∀ x ∈ rest, n < x.1 := sortedKeysB_head_lt hsort
    have hlacc : lookupChild acc n = none :=
      lookupChild_none (fun a ha =>
        Ne.symm (ne_of_lt (hacc a ha (n, c) (List.mem_cons_self _ _))))
    have hset : setChild acc n (stripDir c) = acc ++ [(n, stripDir c)] :=
      setChild_append (fun a ha => hacc a ha (n, c) (List.mem_cons_self _ _))
    have hcond : ∀ a ∈ acc ++ [(n, stripDir c)], ∀ x ∈ rest, a.1 < x.1 := by
      intro a ha x hx
      rcases List.mem_append.1 ha with ha | ha
      · exact hacc a ha x (List.mem_cons_of_mem _ hx)
      · have haa : a = (n, stripDir c) := by simpa using ha
        subst haa
        exact hlt x hx
    simp only [importEntries, hlacc, Option.getD_none, hic, hset,
      himp (acc ++ [(n, stripDir c)]) hcond (sortedKeysB_tail hsort)]
    simp [stripChildren]

/-- A good index exports (deep) to a listing that imports back to the tree
with every directory stat reduced to `{.type = Type::tDirectory}` — the
exporter emits no `size`/`narOffset` for directories, so their engaged-zero
optionals do not survive; every other node comes back identical. -/
theorem export_import_strip (L : Nat) :
    ∀ t, goodIndexB L t = true →
      ∃ j, exportN t true = .ok j ∧
        importInto defaultMember j = .ok (stripDir t) := by
  intro t
  induction t using NarMember.indChildren with
  | h st tg cs ih =>
    intro hg
    obtain ⟨ty, fs, ex, no⟩ := st
    cases ty with
    | tRegular =>
      simp only [goodIndexB, Bool.and_eq_true] at hg
      cases fs with
      | none => cases no <;> simp at hg
      | some s =>
        cases no with
        | none => simp at hg
        | some o =>
          simp only [Bool.and_eq_true, decide_eq_true_eq,
            List.isEmpty_iff] at hg
          obtain ⟨⟨⟨hz, hle⟩, htg⟩, hcs⟩ := hg
          subst htg
          subst hcs
          cases ex with
          | false =>
            refine ⟨.obj [("type", .str "regular"), ("size", .num s),
              ("narOffset", .num o)], ?_, ?_⟩
            · simp [exportN, hz]
            · rfl
          | true =>
            refine ⟨.obj [("type", .str "regular"), ("size", .num s),
              ("executable", .bool true), ("narOffset", .num o)], ?_, ?_⟩
            · simp [exportN, hz]
            · rfl
    | tSymlink =>
      simp only [goodIndexB, Bool.and_eq_true, decide_eq_true_eq,
        List.isEmpty_iff] at hg
      obtain ⟨hstat, hcs⟩ := hg
      have hfs : fs = none := congrArg Stat.fileSize hstat
      have hex : ex = false := congrArg Stat.isExecutable hstat
      have hno : no = none := congrArg Stat.narOffset hstat
      subst hfs
      subst hex
      subst hno
      subst hcs
      exact ⟨.obj [("type", .str "symlink"), ("target", .str tg)],
        by simp [exportN], rfl⟩
    | tDirectory =>
      simp only [goodIndexB, Bool.and_eq_true, decide_eq_true_eq] at hg
      obtain ⟨⟨⟨hstat, htg⟩, hsort⟩, hchl⟩ := hg
      have hfs : fs = some 0 := congrArg Stat.fileSize hstat
      have hex : ex = false := congrArg Stat.isExecutable hstat
      have hno : no = some 0 := congrArg Stat.narOffset hstat
      subst hfs
      subst hex
      subst hno
      subst htg
      have hpt : ∀ x ∈ cs, ∃ jx, exportN x.2 true = .ok jx ∧
          importInto defaultMember jx = .ok (stripDir x.2) :=
        fun x hx => ih x hx (goodChildrenB_mem hchl x hx)
      obtain ⟨es, hes, himp⟩ := exportChildren_roundtrip cs hpt
      have h1 : importEntries [] es = .ok (stripChildren cs) := by
        have := himp [] (fun a ha => absurd ha (by simp)) hsort
        simpa using this
      refine ⟨.obj [("type", .str "directory"), ("entries", .obj es)],
        by simp [exportN, hes], ?_⟩
      have h2 : importInto defaultMember
          (.obj [("type", .str "directory"), ("entries", .obj es)]) =
          importDir defaultMember
            [("type", .str "directory"), ("entries", .obj es)] := by
        simp [importInto, vField, jlookup, asString]
      rw [h2, importDir_eq_jlookup]
      have h3 : jlookup [("type", Json.str "directory"), ("entries", Json.obj es)]
          "entries" = some (Json.obj es) := rfl
      rw [h3]
      simp [entriesCase, importDirEntry, defaultMember, h1, stripDir]
    | tMisc => simp [goodIndexB] at hg

/-- The owned-buffer and sliced-fetcher `readFile` agree on a good index. -/
theorem readFile_owned_eq_slice (nar : List Char) (t : NarMember)
    (hg : goodIndexB nar.length t = true) (p : List String) :
    readFileVia (fun o s => (nar.drop o).take s) t p = readFileOwned nar t p := by
  unfold readFileVia readFileOwned readFileWith
  cases hf : find t p with
  | none => rfl
  | some m =>
    by_cases hr : m.stat.type = .tRegular
    · simp only [if_pos hr]
      obtain ⟨s, o, hs, ho, hz, hle⟩ :=
        goodIndexB_regular (goodIndexB_find p t m hg hf) hr
      rw [hs, ho]
      simp [hle]
    · simp only [if_neg hr]

/-- Stripping never changes a node's type. -/
theorem stripDir_stat_type (m : NarMember) :
    (stripDir m).stat.type = m.stat.type := by
  obtain ⟨st, tg, cs⟩ := m
  by_cases hd : st.type = .tDirectory
  · simp [stripDir, hd]
  · simp [stripDir, hd]

/-- Stripping leaves the stat of a non-directory node untouched. -/
theorem stripDir_stat_nondir {m : NarMember} (h : m.stat.type ≠ .tDirectory) :
    (stripDir m).stat = m.stat := by
  obtain ⟨st, tg, cs⟩ := m
  simp only [NarMember.stat_mk] at h
  simp [stripDir, h]

/-- Stripping reduces a directory node's stat to the importer's
`{.type = Type::tDirectory}`. -/
theorem stripDir_stat_dir {m : NarMember} (h : m.stat.type = .tDirectory) :
    (stripDir m).stat = { type := .tDirectory } := by
  obtain ⟨st, tg, cs⟩ := m
  simp only [NarMember.stat_mk] at h
  simp [stripDir, h]

/-- Stripping preserves the symlink target. -/
theorem stripDir_target (m : NarMember) : (stripDir m).target = m.target := by
  obtain ⟨st, tg, cs⟩ := m
  simp [stripDir]

/-- The children of a stripped node are the stripped children. -/
theorem stripDir_children (m : NarMember) :
    (stripDir m).children = stripChildren m.children := by
  obtain ⟨st, tg, cs⟩ := m
  simp [stripDir]

/-- Child lookup commutes with stripping. -/
theorem stripChildren_lookup (cs : List (String × NarMember)) (n : String) :
    lookupChild (stripChildren cs) n = (lookupChild cs n).map stripDir := by
  induction cs with
  | nil => rfl
  | cons hd rest ih =>
    obtain ⟨k, v⟩ := hd
    by_cases hk : n = k
    · simp [stripChildren, lookupChild, hk]
    · simp [stripChildren, lookupChild, hk, ih]

/-- Stripping preserves the child-name list. -/
theorem stripChildren_fst (cs : List (String × NarMember)) :
    (stripChildren cs).map (fun c => (c.1, (none : Option FType))) =
      cs.map (fun c => (c.1, (none : Option FType))) := by
  induction cs with
  | nil => rfl
  | cons hd rest ih =>
    obtain ⟨k, v⟩ := hd
    simp [stripChildren, ih]

/-- Path resolution commutes with stripping: the stripped tree resolves
exactly the paths the original resolves, to the stripped nodes. -/
theorem find_stripDir (p : List String) : ∀ t : NarMember,
    find (stripDir t) p = (find t p).map stripDir := by
  induction p with
  | nil => intro t; rfl
  | cons n rest ih =>
    intro t
    obtain ⟨st, tg, cs⟩ := t
    by_cases hd : st.type = .tDirectory
    · cases hl : lookupChild cs n with
      | none => simp [find, stripDir, hd, stripChildren_lookup, hl]
      | some c => simp [find, stripDir, hd, stripChildren_lookup, hl, ih c]
    · simp [find, stripDir, hd]

/-- `readDirectory` agrees across stripping. -/
theorem readDirectory_stripDir (t : NarMember) (p : List String) :
    readDirectory (stripDir t) p = readDirectory t p := by
  unfold readDirectory
  rw [find_stripDir]
  cases hf : find t p with
  | none => rfl
  | some m =>
    simp only [Option.map_some', stripDir_stat_type]
    by_cases hd : m.stat.type = .tDirectory
    · simp only [if_pos hd, stripDir_children, stripChildren_fst]
    · simp only [if_neg hd]

/-- `readLink` agrees across stripping. -/
theorem readLink_stripDir (t : NarMember) (p : List String) :
    readLink (stripDir t) p = readLink t p := by
  unfold readLink
  rw [find_stripDir]
  cases hf : find t p with
  | none => rfl
  | some m => simp only [Option.map_some', stripDir_stat_type, stripDir_target]

/-- `readFile` agrees across stripping, whatever the content strategy. -/
theorem readFileWith_stripDir (content : Nat → Nat → Except AccErr (List Char))
    (t : NarMember) (p : List String) :
    readFileWith content (stripDir t) p = readFileWith content t p := by
  unfold readFileWith
  rw [find_stripDir]
  cases hf : find t p with
  | none => rfl
  | some m =>
    simp only [Option.map_some', stripDir_stat_type]
    by_cases hr : m.stat.type = .tRegular
    · have hnd : m.stat.type ≠ .tDirectory := by rw [hr]; decide
      rw [stripDir_stat_nondir hnd]
    · simp only [if_neg hr]

/-- C2 (amended): exporting a good as-built index deep from the root and
re-importing the listing with the fetcher that slices the original buffer
yields an accessor that agrees with the original at every path on
`readDirectory`, `readLink` and `readFile` (against the owned-buffer
original and against the fetcher-based original alike), resolves exactly
the same paths with the same stat types, and returns the identical stat at
every non-directory path.  At directory paths, however, `stat` is NOT
identical: the original index carries the indexer's engaged-zero
`fileSize`/`narOffset` while the re-imported accessor returns the bare
`{.type = Type::tDirectory}` — the exporter emits neither field for a
directory (see `roundTrip_stat_cex` for the discrepancy at a concrete
as-built index). -/
theorem roundTrip_queries (nar : List Char) (t : NarMember)
    (hg : goodIndexB nar.length t = true) :
    ∃ j t', listNar t [] true = .ok j ∧ importJson j = .ok t' ∧
      ∀ p, readDirectory t' p = readDirectory t p ∧
        readLink t' p = readLink t p ∧
        readFileVia (fun o s => (nar.drop o).take s) t' p =
          readFileOwned nar t p ∧
        readFileVia (fun o s => (nar.drop o).take s) t' p =
          readFileVia (fun o s => (nar.drop o).take s) t p ∧
        (maybeLstat t' p).map Stat.type = (maybeLstat t p).map Stat.type ∧
        (∀ m, find t p = some m → m.stat.type ≠ .tDirectory →
           maybeLstat t' p = maybeLstat t p ∧ lstat t' p = lstat t p) ∧
        (∀ m, find t p = some m → m.stat.type = .tDirectory →
           lstat t' p = .ok { type := .tDirectory } ∧
           lstat t p = .ok m.stat) := by
  obtain ⟨j, hex, him⟩ := export_import_strip nar.length t hg
  refine ⟨j, stripDir t, ?_, him, ?_⟩
  · simp only [listNar, find]
    exact hex
  · intro p
    have hvia : readFileVia (fun o s => (nar.drop o).take s) (stripDir t) p =
        readFileVia (fun o s => (nar.drop o).take s) t p := by
      unfold readFileVia
      exact readFileWith_stripDir _ t p
    refine ⟨readDirectory_stripDir t p, readLink_stripDir t p,
      hvia.trans (readFile_owned_eq_slice nar t hg p), hvia, ?_, ?_, ?_⟩
    · unfold maybeLstat
      rw [find_stripDir]
      cases find t p with
      | none => rfl
      | some m => simp [stripDir_stat_type]
    · intro m hf hnd
      have h1 : maybeLstat (stripDir t) p = maybeLstat t p := by
        unfold maybeLstat
        rw [find_stripDir, hf]
        simp [stripDir_stat_nondir hnd]
      exact ⟨h1, by simp [lstat, h1]⟩
    · intro m hf hd
      have h1 : maybeLstat (stripDir t) p = some { type := .tDirectory } := by
        unfold maybeLstat
        rw [find_stripDir, hf]
        simp [stripDir_stat_dir hd]
      have h2 : maybeLstat t p = some m.stat := by
        unfold maybeLstat
        rw [hf]
        rfl
      exact ⟨by simp [lstat, h1], by simp [lstat, h2]⟩

/-- C2 witness: the round trip at a concrete good as-built index. -/
theorem roundTrip_queries_witness :
    ∃ j t', listNar c2Tree [] true = .ok j ∧ importJson j = .ok t' ∧
      ∀ p, readDirectory t' p = readDirectory c2Tree p ∧
        readLink t' p = readLink c2Tree p ∧
        readFileVia (fun o s => (c2Nar.drop o).take s) t' p =
          readFileOwned c2Nar c2Tree p ∧
        readFileVia (fun o s => (c2Nar.drop o).take s) t' p =
          readFileVia (fun o s => (c2Nar.drop o).take s) c2Tree p ∧
        (maybeLstat t' p).map Stat.type =
          (maybeLstat c2Tree p).map Stat.type ∧
        (∀ m, find c2Tree p = some m → m.stat.type ≠ .tDirectory →
           maybeLstat t' p = maybeLstat c2Tree p ∧
           lstat t' p = lstat c2Tree p) ∧
        (∀ m, find c2Tree p = some m → m.stat.type = .tDirectory →
           lstat t' p = .ok { type := .tDirectory } ∧
           lstat c2Tree p = .ok m.stat) :=
  roundTrip_queries c2Nar c2Tree (by decide)

/-- C2, the refuting part: a concrete index built by the indexer itself
(over `c2Events`) whose deep-export/re-import round trip changes the root
directory's `stat` — the as-built engaged-zero `fileSize`/`narOffset` come
back disengaged, so the re-imported accessor's `stat` result differs from
the original's at the root path. -/
theorem roundTrip_stat_cex :
    ∃ st j t', runIndexer c2Events = .ok st ∧ st.root = c2Tree ∧
      listNar st.root [] true = .ok j ∧ importJson j = .ok t' ∧
      maybeLstat st.root [] = some { type := .tDirectory, fileSize := some 0,
                                     isExecutable := false,
                                     narOffset := some 0 } ∧
      maybeLstat t' [] = some { type := .tDirectory } ∧
      lstat st.root [] = .ok { type := .tDirectory, fileSize := some 0,
                               isExecutable := false, narOffset := some 0 } ∧
      lstat t' [] = .ok { type := .tDirectory } ∧
      maybeLstat t' [] ≠ maybeLstat st.root [] := by
  refine ⟨⟨c2Tree, [["f"], []], 7⟩, _, _, rfl, rfl, rfl, rfl, rfl, rfl, rfl,
    rfl, by decide⟩

/-! ## C1: the indexer mirrors well-formed depth-first event streams

A well-formed stream in strict depth-first preorder is exactly the event
sequence the external archive parser emits for some declaration tree
(`FsSpec`): for every entry, some bytes of archive framing are consumed
(`pad` fields, arbitrary), then the entry's create event fires at its
slash-separated path; a regular file optionally marks itself executable,
reads `pad₂` more framing bytes, declares its content size (at which moment
the byte counter stands at the subtree start plus `pad₁ + pad₂`) and then
consumes exactly its content bytes. -/

/-- Structural induction for the nested declaration-tree type. -/
theorem FsSpec.indNodes {P : FsSpec → Prop}
    (hdir : ∀ pad es, (∀ x ∈ es, P x.2) → P (.dir pad es))
    (hfile : ∀ a b ex sz, P (.file a b ex sz))
    (hsym : ∀ pad tg, P (.symlink pad tg)) : ∀ s, P s
  | .dir pad es => hdir pad es (fun x hx => FsSpec.indNodes hdir hfile hsym x.2)
  | .file a b ex sz => hfile a b ex sz
  | .symlink pad tg => hsym pad tg
termination_by s => sizeOf s
decreasing_by
  simp_wf
  have h1 := List.sizeOf_lt_of_mem hx
  obtain ⟨a, b⟩ := x
  simp only [Prod.mk.sizeOf_spec] at h1 ⊢
  omega

/-! ### Map and tree lemmas for the simulation -/

theorem lookupChild_emplace_self {cs : List (String × NarMember)} {n : String}
    (m : NarMember) (h : lookupChild cs n = none) :
    lookupChild (emplaceChild cs n m) n = some m := by
  induction cs with
  | nil => simp [emplaceChild, lookupChild]
  | cons hd rest ih =>
    obtain ⟨k, v⟩ := hd
    have hk : ¬ (n = k) := by
      intro he
      simp [lookupChild, he] at h
    simp only [lookupChild, if_neg hk] at h
    by_cases hlt : n < k
    · simp [emplaceChild, hlt, lookupChild, hk]
    · simp only [emplaceChild, if_neg hlt, if_neg hk, lookupChild, ih h]

theorem lookupChild_emplace_other {cs : List (String × NarMember)}
    {n k : String} (m : NarMember) (h : k ≠ n) :
    lookupChild (emplaceChild cs n m) k = lookupChild cs k := by
  induction cs with
  | nil => simp [emplaceChild, lookupChild, h]
  | cons hd rest ih =>
    obtain ⟨k₀, v⟩ := hd
    by_cases hlt : n < k₀
    · simp [emplaceChild, hlt, lookupChild, h]
    · by_cases he : n = k₀
      · simp [emplaceChild, hlt, he, lookupChild]
      · simp only [emplaceChild, if_neg hlt, if_neg he, lookupChild, ih]

theorem updateChild_lookup (cs : List (String × NarMember)) (n k : String)
    (f : NarMember → NarMember) :
    lookupChild (updateChild cs n f) k =
      if k = n then (lookupChild cs n).map f else lookupChild cs k := by
  induction cs with
  | nil => simp [updateChild, lookupChild]
  | cons hd rest ih =>
    obtain ⟨k₀, v⟩ := hd
    by_cases hn : n = k₀
    · subst hn
      by_cases hk : k = n <;> simp [updateChild, lookupChild, hk]
    · by_cases hk : k = k₀
      · subst hk
        have : ¬ (k = n) := fun he => hn he.symm
        simp [updateChild, hn, lookupChild, this]
      · simp [updateChild, hn, lookupChild, hk, ih]

theorem updateChild_emplace_fresh {cs : List (String × NarMember)} {n : String}
    (m : NarMember) (g : NarMember → NarMember) (h : lookupChild cs n = none) :
    updateChild (emplaceChild cs n m) n g = emplaceChild cs n (g m) := by
  induction cs with
  | nil => simp [emplaceChild, updateChild]
  | cons hd rest ih =>
    obtain ⟨k, v⟩ := hd
    have hk : ¬ (n = k) := by
      intro he
      simp [lookupChild, he] at h
    simp only [lookupChild, if_neg hk] at h
    by_cases hlt : n < k
    · simp [emplaceChild, hlt, updateChild, hk]
    · simp only [emplaceChild, if_neg hlt, if_neg hk, updateChild, ih h]

theorem updateAt_append (m : NarMember) (a b : List String)
    (f : NarMember → NarMember) :
    updateAt m (a ++ b) f = updateAt m a (fun x => updateAt x b f) := by
  induction a generalizing m with
  | nil => simp [updateAt]
  | cons n rest ih =>
    simp only [List.cons_append, updateAt, List.append_eq]
    have hfg : (fun c => updateAt c (rest ++ b) f) =
        (fun c => updateAt c rest (fun x => updateAt x b f)) :=
      funext fun c => ih c
    rw [hfg]

theorem updateAt_updateAt (m : NarMember) (a : List String)
    (f g : NarMember → NarMember) :
    updateAt (updateAt m a f) a g = updateAt m a (fun x => g (f x)) := by
  induction a generalizing m with
  | nil => simp [updateAt]
  | cons n rest ih =>
    simp only [updateAt, NarMember.stat_mk, NarMember.target_mk,
      NarMember.children_mk]
    congr 1
    induction m.children with
    | nil => simp [updateChild]
    | cons hd tl ihc =>
      obtain ⟨k, v⟩ := hd
      by_cases hk : n = k
      · simp [updateChild, hk, ih]
      · simp [updateChild, hk, ihc]

theorem updateChild_congr {cs : List (String × NarMember)} {n : String}
    {c : NarMember} (F G : NarMember → NarMember)
    (hl : lookupChild cs n = some c) (h : F c = G c) :
    updateChild cs n F = updateChild cs n G := by
  induction cs with
  | nil => rfl
  | cons hd rest ih =>
    obtain ⟨k, v⟩ := hd
    by_cases hk : n = k
    · subst hk
      simp [lookupChild] at hl
      subst hl
      simp [updateChild, h]
    · simp only [lookupChild, if_neg hk] at hl
      simp [updateChild, hk, ih hl]

theorem updateAt_congr {m : NarMember} {a : List String} {d : NarMember}
    (f g : NarMember → NarMember) (hr : rawFind m a = some d)
    (hfg : f d = g d) : updateAt m a f = updateAt m a g := by
  induction a generalizing m with
  | nil =>
    simp only [rawFind, Option.some.injEq] at hr
    subst hr
    simpa [updateAt] using hfg
  | cons n rest ih =>
    simp only [rawFind] at hr
    simp only [updateAt]
    congr 1
    cases hl : lookupChild m.children n with
    | none => rw [hl] at hr; exact absurd hr (by simp)
    | some c =>
      rw [hl] at hr
      exact updateChild_congr _ _ hl (ih hr)

theorem rawFind_append (m : NarMember) (a b : List String) :
    rawFind m (a ++ b) = (rawFind m a).bind (fun x => rawFind x b) := by
  induction a generalizing m with
  | nil => simp [rawFind]
  | cons n rest ih =>
    simp only [List.cons_append, rawFind]
    cases lookupChild m.children n with
    | none => simp
    | some c => simpa using ih c

theorem rawFind_updateAt (m : NarMember) (a : List String)
    (f : NarMember → NarMember) :
    rawFind (updateAt m a f) a = (rawFind m a).map f := by
  induction a generalizing m with
  | nil => simp [rawFind, updateAt]
  | cons n rest ih =>
    simp only [rawFind, updateAt, NarMember.children_mk]
    rw [updateChild_lookup]
    simp only [if_pos rfl]
    cases lookupChild m.children n with
    | none => simp
    | some c => simpa using ih c

theorem chainOf_length (q : List String) : (chainOf q).length = q.length + 1 := by
  induction q using chainOf.induct with
  | case1 => simp [chainOf]
  | case2 a as ih => simp [chainOf, ih, List.length_dropLast]

theorem chainOf_cons (q : List String) : ∃ rest, chainOf q = q :: rest := by
  cases q with
  | nil => exact ⟨[], by simp [chainOf]⟩
  | cons a as => exact ⟨chainOf (a :: as).dropLast, by simp [chainOf]⟩

theorem popTo_zero (l : List (List String)) : popTo l 0 = [] := by
  simp [popTo]

theorem chainOf_ne_nil (q : List String) (hq : q ≠ []) :
    chainOf q = q :: chainOf q.dropLast := by
  cases q with
  | nil => exact absurd rfl hq
  | cons a as => simp [chainOf]

theorem chainOf_snoc (init : List String) (x : String) :
    chainOf (init ++ [x]) = (init ++ [x]) :: chainOf init := by
  rw [chainOf_ne_nil _ (by simp), List.dropLast_concat]

theorem popTo_chainOf (q : List String) : ∀ (j : Nat), j ≤ q.length →
    popTo (chainOf q) (j + 1) = chainOf (q.take j) := by
  induction q using List.reverseRecOn with
  | nil =>
    intro j hj
    have hj0 : j = 0 := Nat.le_zero.1 hj
    subst hj0
    simp [popTo, chainOf]
  | append_singleton init x ih =>
    intro j hj
    rw [chainOf_snoc]
    by_cases hje : j = init.length + 1
    · subst hje
      have hlenq : (init ++ [x]).length = init.length + 1 := by simp
      have hlen : ((init ++ [x]) :: chainOf init).length = init.length + 2 := by
        simp [chainOf_length]
      simp only [popTo, hlen]
      rw [Nat.sub_self]
      rw [List.drop_zero, List.take_of_length_le (le_of_eq hlenq)]
      rw [← chainOf_snoc]
    · have hjle : j ≤ init.length := by
        simp only [List.length_append, List.length_singleton] at hj
        omega
      have hlen : ((init ++ [x]) :: chainOf init).length = init.length + 2 := by
        simp [chainOf_length]
      simp only [popTo, hlen]
      have harith : init.length + 2 - (j + 1) = (init.length - j) + 1 := by omega
      rw [harith, List.drop_succ_cons]
      have harith2 : init.length - j = (chainOf init).length - (j + 1) := by
        rw [chainOf_length]
        omega
      rw [harith2]
      show popTo (chainOf init) (j + 1) = _
      rw [ih j hjle, List.take_append_of_le_length hjle]

theorem baseName_concat (p : List String) (n : String) :
    baseName (p ++ [n]) = n := by
  simp [baseName]

theorem dropLast_concat_self (p : List String) (hp : p ≠ []) :
    p.dropLast ++ [baseName p] = p := by
  have hbn : baseName p = p.getLast hp := by
    simp [baseName, List.getLast?_eq_getLast _ hp]
  rw [hbn]
  exact List.dropLast_append_getLast hp

theorem insertSub_eq_updateAt {root : NarMember} {p : List String}
    (m : NarMember) (hp : p ≠ []) :
    insertSub root p m = updateAt root p.dropLast (emplaceInto (baseName p) m) := by
  cases p with
  | nil => exact absurd rfl hp
  | cons x xs => rfl

theorem rawFind_insert_parts (root : NarMember) (pd : List String) (bn : String)
    (d m : NarMember) (h₃ : rawFind root pd = some d)
    (h₅ : lookupChild d.children bn = none) :
    rawFind (updateAt root pd (emplaceInto bn m)) (pd ++ [bn]) = some m := by
  rw [rawFind_append, rawFind_updateAt, h₃]
  simp [rawFind, emplaceInto, lookupChild_emplace_self m h₅]

/-- Inserting and then reading back the inserted subtree. -/
theorem insertSub_rawFind {root : NarMember} {p : List String} {d : NarMember}
    (m : NarMember) (hp : p ≠ []) (h₃ : rawFind root p.dropLast = some d)
    (h₅ : lookupChild d.children (baseName p) = none) :
    rawFind (insertSub root p m) p = some m := by
  rw [insertSub_eq_updateAt m hp]
  have h := rawFind_insert_parts root p.dropLast (baseName p) d m h₃ h₅
  rwa [dropLast_concat_self p hp] at h

theorem updateAt_insert_parts (root : NarMember) (pd : List String) (bn : String)
    (d m : NarMember) (g : NarMember → NarMember)
    (h₃ : rawFind root pd = some d) (h₅ : lookupChild d.children bn = none) :
    updateAt (updateAt root pd (emplaceInto bn m)) (pd ++ [bn]) g =
      updateAt root pd (emplaceInto bn (g m)) := by
  rw [updateAt_append, updateAt_updateAt]
  refine updateAt_congr _ _ h₃ ?_
  show updateAt (emplaceInto bn m d) [bn] g = emplaceInto bn (g m) d
  have hg : (fun c => updateAt c [] g) = g := funext fun c => rfl
  simp only [updateAt, emplaceInto, NarMember.stat_mk, NarMember.target_mk,
    NarMember.children_mk, hg]
  rw [updateChild_emplace_fresh m g h₅]

/-- Updating the freshly inserted subtree in place. -/
theorem insertSub_update {root : NarMember} {p : List String} {d : NarMember}
    (m : NarMember) (g : NarMember → NarMember) (hp : p ≠ [])
    (h₃ : rawFind root p.dropLast = some d)
    (h₅ : lookupChild d.children (baseName p) = none) :
    updateAt (insertSub root p m) p g = insertSub root p (g m) := by
  rw [insertSub_eq_updateAt m hp, insertSub_eq_updateAt (g m) hp]
  have h := updateAt_insert_parts root p.dropLast (baseName p) d m g h₃ h₅
  rwa [dropLast_concat_self p hp] at h

/-- A fresh key stays absent through the spec-side children fold. -/
theorem specChildrenAux_lookup_none (n : String) (es : List (String × FsSpec)) :
    ∀ (acc : List (String × NarMember)) (pos : Nat),
      lookupChild acc n = none → (∀ x ∈ es, n ≠ x.1) →
      lookupChild (specChildrenAux acc pos es) n = none := by
  induction es with
  | nil => intro acc pos hacc _; exact hacc
  | cons hd rest ih =>
    intro acc pos hacc hes
    obtain ⟨k, c⟩ := hd
    simp only [specChildrenAux]
    refine ih _ _ ?_ (fun x hx => hes x (List.mem_cons_of_mem _ hx))
    rw [lookupChild_emplace_other _ (hes (k, c) (List.mem_cons_self _ _))]
    exact hacc

/-- `insertSub_rawFind`, covering the root case too. -/
theorem insertSub_rawFind_or {root : NarMember} {p : List String}
    (m : NarMember)
    (hctx : p = [] ∨ ∃ d, rawFind root p.dropLast = some d ∧
      d.stat.type = .tDirectory ∧ lookupChild d.children (baseName p) = none) :
    rawFind (insertSub root p m) p = some m := by
  rcases hctx with hp | ⟨d, h₃, h₄, h₅⟩
  · subst hp
    rfl
  · by_cases hp : p = []
    · subst hp
      rfl
    · exact insertSub_rawFind m hp h₃ h₅

/-- `insertSub_update`, covering the root case too. -/
theorem insertSub_update_or {root : NarMember} {p : List String}
    (m : NarMember) (g : NarMember → NarMember)
    (hctx : p = [] ∨ ∃ d, rawFind root p.dropLast = some d ∧
      d.stat.type = .tDirectory ∧ lookupChild d.children (baseName p) = none) :
    updateAt (insertSub root p m) p g = insertSub root p (g m) := by
  by_cases hp : p = []
  · subst hp
    rfl
  · rcases hctx with hpe | ⟨d, h₃, h₄, h₅⟩
    · exact absurd hpe hp
    · exact insertSub_update m g hp h₃ h₅

/-- What `createMember` does under the simulation invariant: the member is
inserted at `p` and the stack becomes the chain of `p`. -/
theorem createMember_ctx (root : NarMember) (p q : List String)
    (stk : List (List String)) (pos : Nat) (member : NarMember)
    (hstk : p = [] ∨ (stk = chainOf q ∧ ctxOk root p q)) :
    createMember ⟨root, stk, pos⟩ p member =
      .ok ⟨insertSub root p member, chainOf p, pos⟩ := by
  cases p with
  | nil =>
    unfold createMember
    rw [show ([] : List String).length = 0 from rfl, popTo_zero]
    rw [show chainOf ([] : List String) = [[]] from by simp [chainOf]]
    rfl
  | cons x xs =>
    rcases hstk with hpe | ⟨hchain, h₁, h₂, d, h₃, h₄, h₅⟩
    · exact absurd hpe (by simp)
    subst hchain
    have hpne : (x :: xs : List String) ≠ [] := by simp
    unfold createMember
    rw [show (x :: xs : List String).length =
      ((x :: xs : List String).length - 1) + 1 from by simp]
    rw [popTo_chainOf q _ h₁, h₂]
    obtain ⟨rest, hrest⟩ := chainOf_cons ((x :: xs : List String).dropLast)
    rw [hrest]
    simp only
    rw [h₃]
    dsimp only
    rw [if_pos h₄]
    rw [insertSub_eq_updateAt member hpne]
    rw [chainOf_ne_nil _ hpne, hrest, dropLast_concat_self _ hpne]
    rfl

theorem keyAbsentB_mem {n : String} {es : List (String × FsSpec)}
    (h : keyAbsentB n es = true) : ∀ x ∈ es, n ≠ x.1 := by
  induction es with
  | nil => intro x hx; exact absurd hx (by simp)
  | cons hd rest ih =>
    intro x hx
    obtain ⟨k, c⟩ := hd
    simp only [keyAbsentB, Bool.and_eq_true, Bool.not_eq_true',
      beq_eq_false_iff_ne] at h
    rcases List.mem_cons.1 hx with hx | hx
    · subst hx
      exact h.1
    · exact ih h.2 x hx

/-- The children fold of a directory: each child stream inserts its subtree
under the directory node in turn, realising `specChildrenAux`. -/
theorem genChildren_sim (es : List (String × FsSpec)) :
    ∀ (hpt : ∀ x ∈ es, GenRunP x.2), wfChildrenB es = true →
    keysNodupB es = true →
    ∀ (p : List String) (root : NarMember)
      (builtCs : List (String × NarMember)) (qtail : List String) (pos : Nat),
      (∀ x ∈ es, lookupChild builtCs x.1 = none) →
      (p = [] ∨ ∃ d, rawFind root p.dropLast = some d ∧
         d.stat.type = .tDirectory ∧
         lookupChild d.children (baseName p) = none) →
      runE (genChildren p es)
        (.ok ⟨insertSub root p (.mk dirStat "" builtCs),
              chainOf (p ++ qtail), pos⟩) =
        .ok ⟨insertSub root p (.mk dirStat ""
               (specChildrenAux builtCs pos es)),
             chainOf (p ++ spineAfter qtail es),
             pos + specSizeChildren es⟩ := by
  induction es with
  | nil =>
    intro hpt hwfc hnd p root builtCs qtail pos hfresh hctx
    simp [genChildren, specChildrenAux, specSizeChildren, spineAfter]
  | cons hd rest ih =>
    intro hpt hwfc hnd p root builtCs qtail pos hfresh hctx
    obtain ⟨n, c⟩ := hd
    simp only [wfChildrenB, Bool.and_eq_true] at hwfc
    simp only [keysNodupB, Bool.and_eq_true] at hnd
    have hrest_ne : ∀ x ∈ rest, n ≠ x.1 := keyAbsentB_mem hnd.1
    have hstk_child : (p ++ [n] : List String) = [] ∨
        (chainOf (p ++ qtail) = chainOf (p ++ qtail) ∧
         ctxOk (insertSub root p (.mk dirStat "" builtCs))
           (p ++ [n]) (p ++ qtail)) := by
      right
      refine ⟨rfl, ?_, ?_, ?_⟩
      · simp
      · rw [show (p ++ [n]).length - 1 = p.length from by simp]
        rw [List.take_left, List.dropLast_concat]
      · refine ⟨.mk dirStat "" builtCs, ?_, rfl, ?_⟩
        · rw [List.dropLast_concat]
          exact insertSub_rawFind_or _ hctx
        · rw [baseName_concat]
          simpa using hfresh (n, c) (List.mem_cons_self _ _)
    have hchild := hpt (n, c) (List.mem_cons_self _ _) (p ++ [n]) (p ++ qtail)
      (chainOf (p ++ qtail))
      (insertSub root p (.mk dirStat "" builtCs)) pos hwfc.1
      hstk_child
    simp only [genChildren]
    rw [runE_append, hchild]
    have hins : insertSub
        (insertSub root p (.mk dirStat "" builtCs))
        (p ++ [n]) (specTree pos c) =
        insertSub root p (.mk dirStat ""
          (emplaceChild builtCs n (specTree pos c))) := by
      rw [insertSub_eq_updateAt _ (by simp), List.dropLast_concat,
        baseName_concat]
      exact insertSub_update_or _ _ hctx
    rw [hins]
    have hfresh2 : ∀ x ∈ rest,
        lookupChild (emplaceChild builtCs n (specTree pos c)) x.1 = none := by
      intro x hx
      rw [lookupChild_emplace_other _ (Ne.symm (hrest_ne x hx))]
      exact hfresh x (List.mem_cons_of_mem _ hx)
    have hrec := ih (fun x hx => hpt x (List.mem_cons_of_mem _ hx)) hwfc.2 hnd.2
      p root (emplaceChild builtCs n (specTree pos c)) (n :: spine c)
      (pos + specSize c) hfresh2 hctx
    rw [show (p ++ [n]) ++ spine c = p ++ (n :: spine c) from by simp]
    rw [hrec]
    cases rest with
    | nil =>
      simp [specChildrenAux, specSizeChildren, spineAfter, spineChildren,
        Nat.add_assoc]
    | cons r rs =>
      simp only [specChildrenAux, specSizeChildren, spineAfter, spineChildren,
        Nat.add_assoc]

/-- The per-subtree simulation. -/
theorem genRun (s : FsSpec) : GenRunP s := by
  induction s using FsSpec.indNodes with
  | hsym pad tg =>
    intro p q stk root pos hwf hstk
    simp only [genEvents, runE_cons_ok, step]
    rw [createMember_ctx root p q stk (pos + pad) _ hstk]
    simp [specTree, spine, specSize, runE]
  | hfile a b ex sz =>
    intro p q stk root pos hwf hstk
    simp only [genEvents, runE_cons_ok, step]
    rw [createMember_ctx root p q stk (pos + a) _ hstk]
    have hctx2 : p = [] ∨ ∃ d, rawFind root p.dropLast = some d ∧
        d.stat.type = .tDirectory ∧
        lookupChild d.children (baseName p) = none := by
      rcases hstk with hp | ⟨_, _, _, hd⟩
      · exact Or.inl hp
      · exact Or.inr hd
    obtain ⟨crest, hcrest⟩ := chainOf_cons p
    cases ex with
    | false =>
      simp only [Bool.false_eq_true, if_false, List.nil_append]
      rw [hcrest]
      simp only [runE_cons_ok, step, runE_nil]
      rw [← hcrest]
      rw [insertSub_update_or _ _ hctx2]
      simp [specTree, spine, specSize, Nat.add_assoc]
    | true =>
      simp only [reduceIte, List.cons_append, List.nil_append]
      rw [hcrest]
      simp only [runE_cons_ok, step, runE_nil]
      rw [← hcrest]
      rw [insertSub_update_or _ _ hctx2]
      rw [insertSub_update_or _ _ hctx2]
      simp [specTree, spine, specSize, Nat.add_assoc]
  | hdir pad es ih =>
    intro p q stk root pos hwf hstk
    simp only [wfSpecB, Bool.and_eq_true] at hwf
    simp only [genEvents, runE_cons_ok, step]
    rw [createMember_ctx root p q stk (pos + pad) _ hstk]
    have hctx2 : p = [] ∨ ∃ d, rawFind root p.dropLast = some d ∧
        d.stat.type = .tDirectory ∧
        lookupChild d.children (baseName p) = none := by
      rcases hstk with hp | ⟨_, _, _, hd⟩
      · exact Or.inl hp
      · exact Or.inr hd
    have hfold := genChildren_sim es ih hwf.2 hwf.1 p root [] [] (pos + pad)
      (fun x hx => rfl) hctx2
    rw [show chainOf p = chainOf (p ++ []) from by simp]
    rw [hfold]
    cases es with
    | nil => simp [specTree, spine, spineChildren, spineAfter, specSize,
        specSizeChildren, specChildrenAux, Nat.add_assoc]
    | cons e es' => simp [specTree, spine, spineChildren, spineAfter, specSize,
        Nat.add_assoc]

theorem wfChildrenB_mem {es : List (String × FsSpec)}
    (h : wfChildrenB es = true) : ∀ x ∈ es, wfSpecB x.2 = true := by
  induction es with
  | nil => intro x hx; exact absurd hx (by simp)
  | cons hd rest ih =>
    intro x hx
    obtain ⟨k, c⟩ := hd
    simp only [wfChildrenB, Bool.and_eq_true] at h
    rcases List.mem_cons.1 hx with hx | hx
    · subst hx; exact h.1
    · exact ih h.2 x hx

theorem entriesFind_mem {es : List (String × FsSpec)} {pos pos' : Nat}
    {n : String} {c : FsSpec} (h : entriesFind pos es n = some (pos', c)) :
    ∃ k, (k, c) ∈ es := by
  induction es generalizing pos with
  | nil => simp [entriesFind] at h
  | cons hd rest ih =>
    obtain ⟨k, c₀⟩ := hd
    by_cases hk : n = k
    · subst hk
      simp [entriesFind] at h
      obtain ⟨h1, h2⟩ := h
      subst h2
      exact ⟨n, List.mem_cons_self _ _⟩
    · simp only [entriesFind, if_neg hk] at h
      obtain ⟨k', hk'⟩ := ih h
      exact ⟨k', List.mem_cons_of_mem _ hk'⟩

/-- Looking a name up in the children map the fold builds is exactly the
spec-side sibling lookup. -/
theorem specChildrenAux_lookup (es : List (String × FsSpec)) :
    ∀ (acc : List (String × NarMember)) (pos : Nat) (n : String),
      (∀ x ∈ es, lookupChild acc x.1 = none) → keysNodupB es = true →
      lookupChild (specChildrenAux acc pos es) n =
        match lookupChild acc n with
        | some v => some v
        | none => (entriesFind pos es n).map (fun x => specTree x.1 x.2) := by
  induction es with
  | nil =>
    intro acc pos n hfresh hnd
    simp only [specChildrenAux, entriesFind, Option.map_none']
    cases lookupChild acc n <;> rfl
  | cons hd rest ih =>
    intro acc pos n hfresh hnd
    obtain ⟨k, c⟩ := hd
    simp only [keysNodupB, Bool.and_eq_true] at hnd
    have hk_rest := keyAbsentB_mem hnd.1
    simp only [specChildrenAux]
    have hfresh2 : ∀ x ∈ rest,
        lookupChild (emplaceChild acc k (specTree pos c)) x.1 = none := by
      intro x hx
      rw [lookupChild_emplace_other _ (Ne.symm (hk_rest x hx))]
      exact hfresh x (List.mem_cons_of_mem _ hx)
    rw [ih _ _ n hfresh2 hnd.2]
    by_cases hkn : n = k
    · subst hkn
      rw [lookupChild_emplace_self _ (hfresh (n, c) (List.mem_cons_self _ _))]
      rw [show lookupChild acc n = none from
        hfresh (n, c) (List.mem_cons_self _ _)]
      simp [entriesFind]
    · rw [lookupChild_emplace_other _ hkn]
      simp only [entriesFind, if_neg hkn]

/-- The accessor's `find` over the expected tree is spec-side resolution. -/
theorem find_specTree (p : List String) : ∀ (s : FsSpec) (pos : Nat),
    wfSpecB s = true →
    find (specTree pos s) p =
      (specFind pos s p).map (fun x => specTree x.1 x.2) := by
  induction p with
  | nil => intro s pos hwf; simp [find, specFind]
  | cons n rest ih =>
    intro s pos hwf
    cases s with
    | file a b ex sz => simp [specTree, find, specFind]
    | symlink pad tg => simp [specTree, find, specFind]
    | dir pad es =>
      simp only [wfSpecB, Bool.and_eq_true] at hwf
      simp only [specTree, dirStat, find, NarMember.stat_mk,
        NarMember.children_mk, if_pos rfl]
      rw [specChildrenAux_lookup es [] (pos + pad) n
        (fun x hx => rfl) hwf.1]
      simp only [lookupChild]
      cases hef : entriesFind (pos + pad) es n with
      | none => simp [specFind, hef]
      | some x =>
        obtain ⟨pos', c⟩ := x
        obtain ⟨k, hkmem⟩ := entriesFind_mem hef
        have hwfc : wfSpecB c = true := wfChildrenB_mem hwf.2 (k, c) hkmem
        simp only [Option.map_some']
        rw [ih c pos' hwfc]
        simp [specFind, hef]

/-- Well-formedness propagates down spec-side resolution. -/
theorem specFind_wf (p : List String) :
    ∀ (s : FsSpec) (pos pos' : Nat) (c : FsSpec), wfSpecB s = true →
      specFind pos s p = some (pos', c) → wfSpecB c = true := by
  induction p with
  | nil =>
    intro s pos pos' c hwf hsf
    simp only [specFind, Option.some.injEq, Prod.mk.injEq] at hsf
    rw [← hsf.2]
    exact hwf
  | cons n rest ih =>
    intro s pos pos' c hwf hsf
    cases s with
    | file a b ex sz => simp [specFind] at hsf
    | symlink pad tg => simp [specFind] at hsf
    | dir pad es =>
      simp only [specFind] at hsf
      cases hef : entriesFind (pos + pad) es n with
      | none => rw [hef] at hsf; simp at hsf
      | some y =>
        obtain ⟨py, cy⟩ := y
        rw [hef] at hsf
        simp only at hsf
        simp only [wfSpecB, Bool.and_eq_true] at hwf
        obtain ⟨k, hkmem⟩ := entriesFind_mem hef
        exact ih cy py pos' c (wfChildrenB_mem hwf.2 (k, cy) hkmem) hsf

/-- C1: over every well-formed depth-first preorder event stream — every
stream the archive parser can deliver for a declaration tree `s` with
distinct sibling names, framing reads included — the indexer succeeds, and
the tree it builds mirrors the input paths exactly: resolving any path finds
a node if and only if the declarations contain that path, the node under a
directory is keyed by its path's final segment (its directory's child-name
set is exactly the declared sibling-name set), and every regular-file leaf
carries precisely the declared size and executable flag and, as `narOffset`,
the byte-position counter at its `declareContentSize` event (the subtree's
start `pos'` plus its two framing reads).  Every directory node carries the
stat its `{Type::tDirectory, false, 0, 0}` initializer gives it — type
directory, `fileSize` and `narOffset` both engaged with 0, not executable. -/
theorem narIndexer_mirrors (s : FsSpec) (hwf : wfSpecB s = true) :
    ∃ st, runIndexer (genEvents [] s) = .ok st ∧
      st.root = specTree 0 s ∧ st.pos = specSize s ∧
      ∀ p, match specFind 0 s p with
        | none => find st.root p = none
        | some (pos', .file a b ex sz) =>
            find st.root p = some (.mk { type := .tRegular,
                                         fileSize := some sz,
                                         isExecutable := ex,
                                         narOffset := some (pos' + a + b) }
                                   "" [])
        | some (_, .symlink _ tg) =>
            find st.root p = some (.mk { type := .tSymlink } tg [])
        | some (pos', .dir pad es) =>
            ∃ cs, find st.root p = some (.mk { type := .tDirectory,
                                               fileSize := some 0,
                                               isExecutable := false,
                                               narOffset := some 0 } "" cs) ∧
              ∀ n, (lookupChild cs n).isSome =
                (entriesFind (pos' + pad) es n).isSome := by
  have hrun := genRun s [] [] [] defaultMember 0 hwf (Or.inl rfl)
  refine ⟨⟨specTree 0 s, chainOf (spine s), specSize s⟩, ?_, rfl, rfl, ?_⟩
  · rw [runIndexer, initState, hrun]
    simp [insertSub]
  · intro p
    have hft := find_specTree p s 0 hwf
    cases hsf : specFind 0 s p with
    | none =>
      simp only
      rw [hft, hsf]
      rfl
    | some x =>
      obtain ⟨pos', c⟩ := x
      cases c with
      | file a b ex sz =>
        simp only
        rw [hft, hsf]
        rfl
      | symlink pad tg =>
        simp only
        rw [hft, hsf]
        rfl
      | dir pad es =>
        simp only
        refine ⟨specChildrenAux [] (pos' + pad) es, ?_, ?_⟩
        · rw [hft, hsf]
          rfl
        · intro n
          have hwfc : wfSpecB (.dir pad es) = true :=
            specFind_wf p s 0 pos' _ hwf hsf
          simp only [wfSpecB, Bool.and_eq_true] at hwfc
          rw [specChildrenAux_lookup es [] (pos' + pad) n
            (fun x hx => rfl) hwfc.1]
          simp only [lookupChild]
          cases entriesFind (pos' + pad) es n <;> simp

/-- C1 witness: the mirroring theorem applied to the spec §8 example. -/
theorem narIndexer_mirrors_witness :
    wfSpecB c1Spec = true ∧
    (∃ st, runIndexer (genEvents [] c1Spec) = .ok st ∧
      st.root = specTree 0 c1Spec ∧ st.pos = specSize c1Spec ∧
      ∀ p, match specFind 0 c1Spec p with
        | none => find st.root p = none
        | some (pos', .file a b ex sz) =>
            find st.root p = some (.mk { type := .tRegular,
                                         fileSize := some sz,
                                         isExecutable := ex,
                                         narOffset := some (pos' + a + b) }
                                   "" [])
        | some (_, .symlink _ tg) =>
            find st.root p = some (.mk { type := .tSymlink } tg [])
        | some (pos', .dir pad es) =>
            ∃ cs, find st.root p = some (.mk { type := .tDirectory,
                                               fileSize := some 0,
                                               isExecutable := false,
                                               narOffset := some 0 } "" cs) ∧
              ∀ n, (lookupChild cs n).isSome =
                (entriesFind (pos' + pad) es n).isSome) :=
  ⟨by decide, narIndexer_mirrors c1Spec (by decide)⟩

end Nar
